import Mathlib

/-!
Verification development for the evaluation core of the ohm PEG interpreter
(src/pexprs-eval.js, together with the PosInfo module).

The JavaScript evaluation core is shallowly embedded as executable Lean
functions.  Mutable JS state (the EvalState object, the input-stream stack,
the per-position memo tables) is threaded explicitly; general recursion is
bounded by an explicit fuel parameter, and a result of `none` means "no
result": either the fuel ran out or the JavaScript program would have crashed
(for example by calling a method on `undefined`).  All theorems about a
completed evaluation are conditioned on a `some` result.

The files InputStream.js, State.js, nodes.js, common.js and pexprs.js of the
repository are not part of the given sources; the definitions that stand in
for them are modelled from the specification and are marked by a doc comment
beginning with "Modelled from the spec".  Everything translated from
pexprs-eval.js or from the PosInfo module follows the JavaScript source
statement by statement.

Tracing (state.isTracing()) is modelled as permanently disabled: every
statement of the source that is guarded by isTracing() is a no-op here, and no
claim mentions the trace.
-/

namespace Ohm

/-- Modelled from the spec: the dynamic values of the JavaScript host that can
appear as input atoms, as primitive objects of `Prim`, and inside parse nodes.
`undefined` is JavaScript's `undefined`; the sentinel `common.fail` is represented
by `Option.none` at the places where the source compares against it. -/
inductive JSVal where
  | str (s : String)
  | num (n : Int)
  | boolv (b : Bool)
  | undefined
  | arr (elems : List JSVal)
  | obj (props : List (String × JSVal))

/-- Modelled from the spec: JavaScript strict equality (`===`) restricted to
the values that the evaluator compares.  Primitives compare by value; arrays
and objects compare by object identity, and a literal stored in the grammar is
never the same object as an atom of the input, so those comparisons are
`false`. -/
def jsStrictEq : JSVal → JSVal → Bool
  | .str a, .str b => a == b
  | .num a, .num b => a == b
  | .boolv a, .boolv b => a == b
  | .undefined, .undefined => true
  | _, _ => false

/-- Modelled from the spec: JavaScript's `typeof` operator on the embedded
values (`typeof` of an array is "object"). -/
def jsTypeof : JSVal → String
  | .str _ => "string"
  | .num _ => "number"
  | .boolv _ => "boolean"
  | .undefined => "undefined"
  | .arr _ => "object"
  | .obj _ => "object"

/-- Modelled from the spec: the comparison `a <= b` as used by `Range._eval`,
which only ever compares two values of the same `typeof`; ranges run over the
primitive ordered domains (numbers and strings, compared lexicographically). -/
def jsLE : JSVal → JSVal → Bool
  | .num a, .num b => decide (a ≤ b)
  | .str a, .str b => decide (a ≤ b)
  | _, _ => false

/-- Modelled from the spec: a half-open source span `[startIdx, endIdx)`.  The
back-pointer to the stream is omitted: no claim observes it. -/
structure Interval where
  startIdx : Int
  endIdx : Int

/-- Parse-tree nodes.  `node` is the source's `Node(grammar, ctorName,
children, interval)` and `terminalNode` is `TerminalNode(grammar, value,
interval)`; the grammar handle is ambient and omitted.  Children are drawn
from the bindings stack, whose JavaScript entries are `Node | undefined`,
hence `Option Node`. -/
inductive Node where
  | node (ctorName : String) (children : List (Option Node)) (interval : Interval)
  | terminalNode (value : JSVal) (interval : Interval)

/-- The interval carried by a node. -/
def Node.interval : Node → Interval
  | .node _ _ i => i
  | .terminalNode _ i => i

/-- A packrat memo record `{pos, value}`.  A JavaScript `value` of `false`
(the seed placeholder, or a memoized failure) is `none`; a parse node is
`some`. -/
structure MemoRec where
  pos : Int
  value : Option Node

/-- Pattern-matching expressions: the closed family of variants interpreted by
pexprs-eval.js.  `apply` carries an identity tag `id`: JavaScript compares
Apply objects with `===` (object identity), which the tree embedding cannot
express structurally.  Distinct Apply occurrences of a grammar carry distinct
positive ids; `substituteParams` allocates a fresh object for a parameterized
application, modelled by id 0, which is identical to nothing (see
`applyIdentical`). -/
inductive PExpr where
  | anything
  | endExpr
  | prim (obj : JSVal)
  | stringPrim (obj : String)
  | range (lo hi : JSVal)
  | unicodeChar (pattern : JSVal → Bool)
  | param (index : Nat)
  | lex (expr : PExpr)
  | alt (terms : List PExpr)
  | seq (factors : List PExpr)
  | iter (expr : PExpr) (minNumMatches : Nat) (maxNumMatches : Option Nat)
  | not (expr : PExpr)
  | lookahead (expr : PExpr)
  | arr (expr : PExpr)
  | str (expr : PExpr)
  | obj (properties : List (String × PExpr)) (isLenient : Bool)
  | apply (ruleName : String) (params : List PExpr) (id : Nat)

/-- Modelled from the spec: a rule is syntactic iff its name begins with an
uppercase letter (pexprs.js is not among the sources). -/
def PExpr.isSyntactic : PExpr → Bool
  | .apply ruleName _ _ =>
    match ruleName.data with
    | c :: _ => c.isUpper
    | [] => false
  | _ => false

/-- Modelled from the spec: JavaScript object identity (`===`) between two
Apply expressions.  Two references are the same object iff they carry the same
positive id; id 0 marks a freshly allocated substituted application, which is
never identical to any other reference. -/
def applyIdentical : PExpr → PExpr → Bool
  | .apply _ _ i, .apply _ _ j => i == j && i != 0
  | _, _ => false

/-- Modelled from the spec: the printed form of a primitive value inside a
memo key.  The exact rendering of non-rule arguments is not observed by any
claim. -/
def jsValKey : JSVal → String
  | .str s => s
  | .num n => toString n
  | .boolv b => toString b
  | .undefined => "undefined"
  | .arr _ => "array"
  | .obj _ => "object"

mutual

/-- Modelled from the spec (§6): the canonical memo-key string of a
fully-substituted application, `ruleName` or `ruleName<arg1,arg2,...>`;
arguments print through their own keys. -/
def toMemoKey : PExpr → String
  | .apply ruleName ps _ =>
    if ps.isEmpty then ruleName else ruleName ++ "<" ++ toMemoKeyList ps ++ ">"
  | .anything => "anything"
  | .endExpr => "end"
  | .prim v => "prim " ++ jsValKey v
  | .stringPrim s => "\"" ++ s ++ "\""
  | .range lo hi => "range " ++ jsValKey lo ++ ".." ++ jsValKey hi
  | .unicodeChar _ => "unicodeChar"
  | .param i => "$" ++ toString i
  | .lex e => "#(" ++ toMemoKey e ++ ")"
  | .alt ts => "alt(" ++ toMemoKeyList ts ++ ")"
  | .seq fs => "seq(" ++ toMemoKeyList fs ++ ")"
  | .iter e mn mx =>
    "iter(" ++ toMemoKey e ++ "," ++ toString mn ++ ","
      ++ (match mx with | some m => toString m | none => "inf") ++ ")"
  | .not e => "~(" ++ toMemoKey e ++ ")"
  | .lookahead e => "&(" ++ toMemoKey e ++ ")"
  | .arr e => "[" ++ toMemoKey e ++ "]"
  | .str e => "string(" ++ toMemoKey e ++ ")"
  | .obj ps lenient =>
    "obj(" ++ toMemoKeyProps ps ++ (if lenient then ",..." else "") ++ ")"

/-- Comma-separated keys of a list of argument expressions. -/
def toMemoKeyList : List PExpr → String
  | [] => ""
  | [p] => toMemoKey p
  | p :: ps => toMemoKey p ++ "," ++ toMemoKeyList ps

/-- Keys of the property patterns of an Obj expression. -/
def toMemoKeyProps : List (String × PExpr) → String
  | [] => ""
  | (n, p) :: ps => n ++ ":" ++ toMemoKey p ++ ";" ++ toMemoKeyProps ps

end

mutual

/-- Modelled from the spec (§4.3 step 1): substitute the caller's actual
arguments for the `Param` expressions of an application.  An unparameterized
`apply` returns itself (the same object, hence the same id); a parameterized
one allocates a fresh object (id 0).  An out-of-range parameter index is a
programmer error rejected by grammar validation; it is kept in place here. -/
def substituteParams (actuals : List PExpr) : PExpr → PExpr
  | .param i => (actuals.get? i).getD (.param i)
  | .apply ruleName ps id =>
    if ps.isEmpty then .apply ruleName ps id
    else .apply ruleName (substituteParamsList actuals ps) 0
  | .lex e => .lex (substituteParams actuals e)
  | .alt ts => .alt (substituteParamsList actuals ts)
  | .seq fs => .seq (substituteParamsList actuals fs)
  | .iter e mn mx => .iter (substituteParams actuals e) mn mx
  | .not e => .not (substituteParams actuals e)
  | .lookahead e => .lookahead (substituteParams actuals e)
  | .arr e => .arr (substituteParams actuals e)
  | .str e => .str (substituteParams actuals e)
  | .obj ps lenient => .obj (substituteParamsProps actuals ps) lenient
  | .anything => .anything
  | .endExpr => .endExpr
  | .prim v => .prim v
  | .stringPrim s => .stringPrim s
  | .range lo hi => .range lo hi
  | .unicodeChar p => .unicodeChar p

/-- Substitution over a list of expressions. -/
def substituteParamsList (actuals : List PExpr) : List PExpr → List PExpr
  | [] => []
  | e :: es => substituteParams actuals e :: substituteParamsList actuals es

/-- Substitution over the property patterns of an Obj expression. -/
def substituteParamsProps (actuals : List PExpr) :
    List (String × PExpr) → List (String × PExpr)
  | [] => []
  | (n, e) :: ps => (n, substituteParams actuals e) :: substituteParamsProps actuals ps

end

mutual

/-- Modelled from the spec (§4.1, §6): the static number of bindings an
expression contributes on success (pexprs getArity is not among the sources).
Following the spec word for word: `Arr`, `Str` have arity 0, a lenient `Obj`
has arity 1 and a strict one 0, `Not` has arity 0, an application contributes
its single rule node, and `Alt` requires all alternatives to share the arity
of the first. -/
def getArity : PExpr → Nat
  | .anything => 1
  | .endExpr => 1
  | .prim _ => 1
  | .stringPrim _ => 1
  | .range _ _ => 1
  | .unicodeChar _ => 1
  | .param _ => 1
  | .lex e => getArity e
  | .alt ts =>
    match ts with
    | [] => 0
    | t :: _ => getArity t
  | .seq fs => getAritySum fs
  | .iter e _ _ => getArity e
  | .not _ => 0
  | .lookahead e => getArity e
  | .arr _ => 0
  | .str _ => 0
  | .obj _ isLenient => if isLenient then 1 else 0
  | .apply _ _ _ => 1

/-- Sum of the arities of the factors of a sequence. -/
def getAritySum : List PExpr → Nat
  | [] => 0
  | f :: fs => getArity f + getAritySum fs

end

/-- One left-recursion frame: the data that PosInfo.startLeftRecursion overlays
onto the seed memo record.  The `nextLeftRecursion` link of the source is the
tail of the list stored in `PosInfo.currentLeftRecursion`.  The source's
closures `isInvolved` and `updateInvolvedApplications` close over the live
`applicationStack`, the computed `indexOfFirstInvolvedRule` and the
`involvedApplications` array; those three captured data are stored here
explicitly. -/
structure LRFrame where
  headApplication : PExpr
  involvedApplications : List String
  indexOfFirstInvolvedRule : Int

/-- Per-position parse state (PosInfo module): the memo-key stack of the
active applications at this position, the memo table, and the stack of
left-recursion frames whose head is `currentLeftRecursion`. -/
structure PosInfo where
  applicationStack : List String
  memo : List (String × MemoRec)
  currentLeftRecursion : List LRFrame

/-- The empty PosInfo, as built by the PosInfo constructor. -/
def PosInfo.empty : PosInfo :=
  { applicationStack := [], memo := [], currentLeftRecursion := [] }

/-- Association-list update used for the memo table and the PosInfo table:
`alistInsert k v l` makes `k` map to `v` and every other key keep its value
(the JavaScript property assignment `table[k] = v`). -/
def alistInsert {α β : Type} [BEq α] (k : α) (v : β) (l : List (α × β)) :
    List (α × β) :=
  (k, v) :: l.filter (fun p => !(p.1 == k))

/-- Modelled from the spec (§3): a positioned cursor over a sequence of atoms,
together with the per-position PosInfo table of this input (the spec's
"per-input, per-position PosInfo table"; the table rides on its stream, so a
nested stream gets a fresh table and an outer stream keeps its own).  The
cursor is an `Int` because a replayed seed record sets `pos` to `-1`
transiently. -/
structure InputStream where
  source : List JSVal
  pos : Int
  posInfos : List (Int × PosInfo)

/-- Modelled from the spec: the atoms of a string input are its code points
(single-character strings, as JavaScript has no character type). -/
def stringAtoms (s : String) : List JSVal :=
  s.data.map (fun c => JSVal.str (String.singleton c))

/-- Modelled from the spec: `InputStream.newFor` builds a fresh stream over a
string (code-point atoms) or over an array (its elements). -/
def InputStream.newFor (v : JSVal) : InputStream :=
  match v with
  | .str s => { source := stringAtoms s, pos := 0, posInfos := [] }
  | .arr elems => { source := elems, pos := 0, posInfos := [] }
  | other => { source := [other], pos := 0, posInfos := [] }

/-- Modelled from the spec: a fresh stream over an explicit list of atoms
(used by Obj for the singleton `[value]` stream). -/
def InputStream.newForAtoms (atoms : List JSVal) : InputStream :=
  { source := atoms, pos := 0, posInfos := [] }

/-- Modelled from the spec: `atEnd()` holds iff the cursor sits at the length
of the sequence. -/
def InputStream.atEnd (is : InputStream) : Bool :=
  is.pos == (is.source.length : Int)

/-- Modelled from the spec: `next()` returns the atom at `pos` and advances,
or the `FAIL` sentinel (here `none`) when at the end. -/
def InputStream.next (is : InputStream) : Option JSVal × InputStream :=
  if 0 ≤ is.pos ∧ is.pos < (is.source.length : Int) then
    (is.source.get? is.pos.toNat, { is with pos := is.pos + 1 })
  else
    (none, is)

/-- Modelled from the spec: `matchExactly(v)` consumes one atom and succeeds
iff it is strictly equal to `v` (Prim.prototype.match). -/
def InputStream.matchExactly (is : InputStream) (v : JSVal) : Bool × InputStream :=
  match is.next with
  | (some a, is1) => (jsStrictEq a v, is1)
  | (none, is1) => (false, is1)

/-- Modelled from the spec: `matchString(s)` consumes one atom per code point
of `s` and succeeds iff each equals the corresponding code point
(StringPrim.prototype.match). -/
def InputStream.matchChars (is : InputStream) : List Char → Bool × InputStream
  | [] => (true, is)
  | c :: cs =>
    match is.next with
    | (some a, is1) =>
      if jsStrictEq a (.str (String.singleton c)) then is1.matchChars cs
      else (false, is1)
    | (none, is1) => (false, is1)

/-- Entry point of `matchString`. -/
def InputStream.matchString (is : InputStream) (s : String) : Bool × InputStream :=
  is.matchChars s.data

/-- Modelled from the spec: `interval(startIdx, endIdx)`; the call sites that
used the default second argument pass the current position explicitly. -/
def InputStream.interval (startIdx endIdx : Int) : Interval :=
  { startIdx := startIdx, endIdx := endIdx }

/-- A rule of the grammar: its desugared body expression and the optional
user-visible description read by `Apply.prototype.reallyEval`
(`body.description`). -/
structure Rule where
  body : PExpr
  description : Option String

/-- Modelled from the spec (§6): the compiled grammar handed to the core: the
rule dictionary and the dedicated whitespace application `applySpaces_`. -/
structure Grammar where
  ruleDict : List (String × Rule)
  applySpaces : PExpr

/-- Ghost instrumentation: one record per completed `Apply._eval`, carrying
the memo key, the input position at which the memo table was consulted, the
boolean outcome, and the position at which `_eval` returned.  No evaluation
behaviour depends on the log. -/
structure ApplyLogEntry where
  memoKey : String
  pos : Int
  ans : Bool
  endPos : Int
deriving DecidableEq

/-- Modelled from the spec (§3): the top-level parse state.  `inputStream` is
the active stream and `inputStreamStack` the stack of outer streams pushed by
Arr/Str/Obj; `applicationStack` is the state-level chain of active (already
substituted) applications maintained by `state.enter`/`state.exit`, used to
resolve `Param` and the syntactic context; `failureSuppression` is the counted
suppression scope of `doNotRecordFailures`; `failures` records the positions
of non-suppressed failures (the expected-expression descriptor of
`recordFailure` is omitted: no claim observes it).  `applyLog` is ghost
instrumentation. -/
structure EvalState where
  inputStream : InputStream
  inputStreamStack : List InputStream
  bindings : List (Option Node)
  applicationStack : List PExpr
  lexicalContextDepth : Nat
  failureSuppression : Nat
  failures : List Int
  grammar : Grammar
  applyLog : List ApplyLogEntry

namespace EvalState

/-- Modelled from the spec: the innermost active application
(`state.currentApplication()`). -/
def currentApplication (s : EvalState) : Option PExpr :=
  s.applicationStack.head?

/-- Modelled from the spec: the actual arguments of an application
(`caller.params`). -/
def paramsOf : PExpr → List PExpr
  | .apply _ ps _ => ps
  | _ => []

/-- Modelled from the spec (§3, §4.1): the context is syntactic iff the
current application is a syntactic rule and no lexical context (entered by
`Lex`) is active; lexical context overrides syntactic. -/
def inSyntacticContext (s : EvalState) : Bool :=
  (match s.currentApplication with
   | some app => app.isSyntactic
   | none => false)
  && s.lexicalContextDepth == 0

/-- Modelled from the spec: `state.enterLexicalContext()`. -/
def enterLexicalContext (s : EvalState) : EvalState :=
  { s with lexicalContextDepth := s.lexicalContextDepth + 1 }

/-- Modelled from the spec: `state.exitLexicalContext()`. -/
def exitLexicalContext (s : EvalState) : EvalState :=
  { s with lexicalContextDepth := s.lexicalContextDepth - 1 }

/-- Modelled from the spec: `state.doNotRecordFailures()` opens a counted
suppression scope. -/
def doNotRecordFailures (s : EvalState) : EvalState :=
  { s with failureSuppression := s.failureSuppression + 1 }

/-- Modelled from the spec: `state.doRecordFailures()` closes it. -/
def doRecordFailures (s : EvalState) : EvalState :=
  { s with failureSuppression := s.failureSuppression - 1 }

/-- Modelled from the spec (§4.4): `state.recordFailure(pos, expr)` records a
failure position unless suppressed; the expected-expression descriptor is
omitted. -/
def recordFailure (s : EvalState) (pos : Int) : EvalState :=
  if s.failureSuppression == 0 then { s with failures := pos :: s.failures } else s

/-- Set the cursor of the active stream (`state.inputStream.pos = p`). -/
def setPos (s : EvalState) (p : Int) : EvalState :=
  { s with inputStream := { s.inputStream with pos := p } }

/-- Append a binding (`state.bindings.push(node)`).  JavaScript pushes at the
end of the array; the list keeps that order. -/
def pushBinding (s : EvalState) (n : Option Node) : EvalState :=
  { s with bindings := s.bindings ++ [n] }

/-- Modelled from the spec: `state.truncateBindings(n)` restores the bindings
stack to exactly the pre-call length ("on failure |bindings| and pos restored
to pre-call values"); like a JavaScript `array.length = n` assignment it pads
with `undefined` in the (unreachable for validated grammars) case of a
shorter stack. -/
def truncateBindings (s : EvalState) (n : Nat) : EvalState :=
  { s with bindings := s.bindings.take n ++ List.replicate (n - s.bindings.length) none }

/-- Modelled from the spec: `state.pushInputStream(st)` makes `st` the active
stream and saves the current one. -/
def pushInputStream (s : EvalState) (st : InputStream) : EvalState :=
  { s with inputStreamStack := s.inputStream :: s.inputStreamStack, inputStream := st }

/-- Modelled from the spec: `state.popInputStream()` restores the saved
stream, discarding the nested one.  Popping an empty stack is a crash in
JavaScript; the active stream is kept in that unreachable case. -/
def popInputStream (s : EvalState) : EvalState :=
  match s.inputStreamStack with
  | top :: rest => { s with inputStream := top, inputStreamStack := rest }
  | [] => s

/-- The PosInfo of the active stream at position `p` (reading an absent entry
yields the fresh PosInfo that `getPosInfo` would create there). -/
def posInfoAt (s : EvalState) (p : Int) : PosInfo :=
  (s.inputStream.posInfos.lookup p).getD PosInfo.empty

/-- `state.getCurrentPosInfo()`. -/
def getCurrentPosInfo (s : EvalState) : PosInfo :=
  s.posInfoAt s.inputStream.pos

/-- Replace the PosInfo of the active stream at position `p`. -/
def setPosInfoAt (s : EvalState) (p : Int) (pi : PosInfo) : EvalState :=
  { s with inputStream :=
    { s.inputStream with posInfos := alistInsert p pi s.inputStream.posInfos } }

/-- Update the PosInfo of the active stream at position `p`. -/
def modifyPosInfoAt (s : EvalState) (p : Int) (f : PosInfo → PosInfo) : EvalState :=
  s.setPosInfoAt p (f (s.posInfoAt p))

/-- Look up the memo record for `key` at position `p` of the active stream. -/
def lookupMemo (s : EvalState) (p : Int) (key : String) : Option MemoRec :=
  (s.posInfoAt p).memo.lookup key

/-- Store a memo record for `key` at position `p` of the active stream. -/
def writeMemo (s : EvalState) (p : Int) (key : String) (rec : MemoRec) : EvalState :=
  s.modifyPosInfoAt p (fun pi => { pi with memo := alistInsert key rec pi.memo })

/-- Ghost instrumentation: append one application record to the log. -/
def logApply (s : EvalState) (e : ApplyLogEntry) : EvalState :=
  { s with applyLog := s.applyLog ++ [e] }

end EvalState

/-- PosInfo.prototype.isActive: membership of the application's memo key in
this position's application stack. -/
def PosInfo.isActive (pi : PosInfo) (application : PExpr) : Bool :=
  pi.applicationStack.contains (toMemoKey application)

/-- PosInfo.prototype.enter: delegate to `state.enter` (push the application
on the state-level chain) and push its memo key on this position's stack. -/
def posInfoEnter (s : EvalState) (p : Int) (application : PExpr) : EvalState :=
  let s1 := { s with applicationStack := application :: s.applicationStack }
  s1.modifyPosInfoAt p (fun pi =>
    { pi with applicationStack := pi.applicationStack ++ [toMemoKey application] })

/-- PosInfo.prototype.exit: delegate to `state.exit` (pop the state-level
chain) and pop this position's stack. -/
def posInfoExit (s : EvalState) (p : Int) : EvalState :=
  let s1 := { s with applicationStack := s.applicationStack.tail }
  s1.modifyPosInfoAt p (fun pi =>
    { pi with applicationStack := pi.applicationStack.dropLast })

/-- JavaScript `Array.prototype.indexOf` over the memo-key stack: the index of
the first strictly-equal element, or `-1`. -/
def jsIndexOf (l : List String) (k : String) : Int :=
  match l.findIdx? (fun x => x == k) with
  | some i => (i : Int)
  | none => -1

/-- PosInfo.prototype.startLeftRecursion: link the new frame in front of the
current one, record the head application, and capture the suffix of the
application stack strictly inside the head as the initially involved
applications. -/
def startLeftRecursion (s : EvalState) (p : Int) (headApplication : PExpr) : EvalState :=
  s.modifyPosInfoAt p (fun pi =>
    let indexOfFirstInvolvedRule :=
      jsIndexOf pi.applicationStack (toMemoKey headApplication) + 1
    let involvedApplications := pi.applicationStack.drop indexOfFirstInvolvedRule.toNat
    { pi with currentLeftRecursion :=
        { headApplication := headApplication
          involvedApplications := involvedApplications
          indexOfFirstInvolvedRule := indexOfFirstInvolvedRule }
        :: pi.currentLeftRecursion })

/-- PosInfo.prototype.endLeftRecursion: `currentLeftRecursion =
currentLeftRecursion.nextLeftRecursion`. -/
def endLeftRecursion (s : EvalState) (p : Int) : EvalState :=
  s.modifyPosInfoAt p (fun pi =>
    { pi with currentLeftRecursion := pi.currentLeftRecursion.tail })

/-- The closure `memoRec.isInvolved(application)`:
`involvedApplications.indexOf(application.toMemoKey()) >= 0`. -/
def LRFrame.isInvolved (frame : LRFrame) (application : PExpr) : Bool :=
  frame.involvedApplications.contains (toMemoKey application)

/-- The closure `memoRec.updateInvolvedApplications()`.  The loop walks
`applicationStack` from `indexOfFirstInvolvedRule + 1` and calls
`this.isInvolved(application)` on each entry; the entries of
`applicationStack` are memo-key strings, and `isInvolved` immediately invokes
`application.toMemoKey()` on its argument, so the first executed iteration
throws a TypeError (a string has no such method).  The result is therefore
the unchanged frame when the loop body never runs, and a crash (`none`)
otherwise. -/
def updateInvolvedApplications (frame : LRFrame) (applicationStack : List String) :
    Option LRFrame :=
  if frame.indexOfFirstInvolvedRule + 1 < (applicationStack.length : Int) then
    none
  else
    some frame

/-- useMemoizedResult (pexprs-eval.js): replay a memo record — move the
cursor to the recorded position and push the recorded value iff truthy. -/
def useMemoizedResult (s : EvalState) (memoRec : MemoRec) : Bool × EvalState :=
  let s1 := s.setPos memoRec.pos
  match memoRec.value with
  | some v => (true, s1.pushBinding (some v))
  | none => (false, s1)

/-- Is the value object-like for Obj._eval: truthy and of typeof "object" or
"function" (and not the FAIL sentinel, which the caller checks). -/
def jsIsObjectLike : JSVal → Bool
  | .obj _ => true
  | .arr _ => true
  | _ => false

/-- JavaScript own enumerable properties in insertion order: the key/value
pairs of an object, or the indexed elements of an array (whose `typeof` is
also "object").  Used for `hasOwnProperty`, property reads, `for..in` and
`Object.keys`. -/
def jsOwnProps : JSVal → List (String × JSVal)
  | .obj props => props
  | .arr elems => elems.enum.map (fun p => (toString p.1, p.2))
  | _ => []

/-- `obj.hasOwnProperty(name)`. -/
def jsHasOwnProperty (v : JSVal) (name : String) : Bool :=
  ((jsOwnProps v).lookup name).isSome

/-- `obj[name]` for an own property (`undefined` when absent; every read in
the source is guarded by `hasOwnProperty`). -/
def jsGetProp (v : JSVal) (name : String) : JSVal :=
  ((jsOwnProps v).lookup name).getD .undefined

/-- `this.properties.indexOf(p)` in Obj._eval: `Array.prototype.indexOf`
searches with strict equality, the elements of `this.properties` are property
records (JavaScript objects `{name, pattern}`) while `p` is a key string, and
`===` between an object and a string is always false — so the search never
succeeds and the result is always `-1`. -/
def propertiesIndexOf (properties : List (String × PExpr)) (p : String) : Int :=
  -1

/-- `numMatches < this.maxNumMatches` of Iter._eval; `none` models the
JavaScript `Infinity` used for unbounded repetition. -/
def ltMaxNum (numMatches : Nat) : Option Nat → Bool
  | none => true
  | some m => numMatches < m

/-- The row-distribution loop of Iter._eval:
`for (idx = 0; idx < row.length; idx++) cols[idx].push(row[idx])`. -/
def distributeRow (cols : List (List (Option Node))) (row : List (Option Node)) :
    List (List (Option Node)) :=
  cols.mapIdx (fun i col =>
    match row.get? i with
    | some b => col ++ [b]
    | none => col)

/-- The interval computed by Iter._eval after the loop: a zero-width interval
at `origPos` when nothing matched, else from the start of the first binding of
the first column to the end of the last binding of the last column.  Reading
`cols[0]` of an empty `cols`, or a missing binding, is a JavaScript crash
(`none`). -/
def iterInterval (origPos : Int) (numMatches : Nat)
    (cols : List (List (Option Node))) : Option Interval :=
  if numMatches == 0 then some (InputStream.interval origPos origPos)
  else
    match cols.head?, cols.getLast? with
    | some firstCol, some lastCol =>
      match firstCol.head?, lastCol.getLast? with
      | some (some firstB), some (some lastB) =>
        some (InputStream.interval firstB.interval.startIdx lastB.interval.endIdx)
      | _, _ => none
    | _, _ => none

mutual

/-- PExpr.prototype.eval (pexprs-eval.js, lines 24-50): the uniform wrapper.
It saves the cursor of the active stream and the bindings length, runs
`_eval`, and on failure restores both.  The source restores the cursor of the
stream object captured before the call; `_eval` returns with the very same
active stream (theorem `baseEffects_sound`), so setting the active stream's
cursor is the identical mutation. -/
def eval : Nat → PExpr → EvalState → Option (Bool × EvalState)
  | 0, _, _ => none
  | fuel + 1, e, s =>
    let origPos := s.inputStream.pos
    let origNumBindings := s.bindings.length
    match evalCore fuel e s with
    | none => none
    | some (ans, s1) =>
      if ans then some (true, s1)
      else some (false, (s1.setPos origPos).truncateBindings origNumBindings)
termination_by structural fuel => fuel

/-- The per-variant `_eval` methods of pexprs-eval.js, dispatched over the
closed expression family. -/
def evalCore : Nat → PExpr → EvalState → Option (Bool × EvalState)
  | 0, _, _ => none
  | fuel + 1, e, s =>
    match e with
    | .anything =>
      match skipSpacesIfInSyntacticContext fuel s with
      | none => none
      | some (origPos, s1) =>
        let nx := s1.inputStream.next
        let s2 := { s1 with inputStream := nx.2 }
        match nx.1 with
        | none => some (false, s2.recordFailure origPos)
        | some value =>
          let iv := InputStream.interval origPos s2.inputStream.pos
          some (true, s2.pushBinding (some (.terminalNode value iv)))
    | .endExpr =>
      match skipSpacesIfInSyntacticContext fuel s with
      | none => none
      | some (origPos, s1) =>
        if s1.inputStream.atEnd then
          let iv := InputStream.interval s1.inputStream.pos s1.inputStream.pos
          some (true, s1.pushBinding (some (.terminalNode .undefined iv)))
        else
          some (false, s1.recordFailure origPos)
    | .prim obj =>
      match skipSpacesIfInSyntacticContext fuel s with
      | none => none
      | some (origPos, s1) =>
        let m := s1.inputStream.matchExactly obj
        let s2 := { s1 with inputStream := m.2 }
        if !m.1 then some (false, s2.recordFailure origPos)
        else
          let iv := InputStream.interval origPos s2.inputStream.pos
          some (true, s2.pushBinding (some (.terminalNode obj iv)))
    | .stringPrim obj =>
      match skipSpacesIfInSyntacticContext fuel s with
      | none => none
      | some (origPos, s1) =>
        let m := s1.inputStream.matchString obj
        let s2 := { s1 with inputStream := m.2 }
        if !m.1 then some (false, s2.recordFailure origPos)
        else
          let iv := InputStream.interval origPos s2.inputStream.pos
          some (true, s2.pushBinding (some (.terminalNode (.str obj) iv)))
    | .range lo hi =>
      match skipSpacesIfInSyntacticContext fuel s with
      | none => none
      | some (origPos, s1) =>
        let nx := s1.inputStream.next
        let s2 := { s1 with inputStream := nx.2 }
        match nx.1 with
        | some obj =>
          if jsTypeof obj == jsTypeof lo && jsLE lo obj && jsLE obj hi then
            let iv := InputStream.interval origPos s2.inputStream.pos
            some (true, s2.pushBinding (some (.terminalNode obj iv)))
          else
            some (false, s2.recordFailure origPos)
        | none => some (false, s2.recordFailure origPos)
    | .unicodeChar pattern =>
      match skipSpacesIfInSyntacticContext fuel s with
      | none => none
      | some (origPos, s1) =>
        let nx := s1.inputStream.next
        let s2 := { s1 with inputStream := nx.2 }
        match nx.1 with
        | none => some (false, s2.recordFailure origPos)
        | some value =>
          if !(pattern value) then some (false, s2.recordFailure origPos)
          else
            let iv := InputStream.interval origPos s2.inputStream.pos
            some (true, s2.pushBinding (some (.terminalNode value iv)))
    | .param index =>
      match s.currentApplication with
      | none => none
      | some caller =>
        match (EvalState.paramsOf caller).get? index with
        | none => none
        | some argExpr => eval fuel argExpr s
    | .lex expr =>
      match eval fuel expr s.enterLexicalContext with
      | none => none
      | some (ans, s1) => some (ans, s1.exitLexicalContext)
    | .alt terms => altLoop fuel terms s
    | .seq factors => seqLoop fuel factors s
    | .iter expr mn mx =>
      let origPos := s.inputStream.pos
      let arity := getArity (.iter expr mn mx)
      let cols : List (List (Option Node)) := List.replicate arity []
      match iterLoop fuel expr arity mx 0 cols s with
      | none => none
      | some ((numMatches, cols1), s1) =>
        if numMatches < mn then some (false, s1)
        else
          match iterInterval origPos numMatches cols1 with
          | none => none
          | some iv =>
            some (true, cols1.foldl
              (fun st col => st.pushBinding (some (.node "_iter" col iv))) s1)
    | .not expr =>
      let origPos := s.inputStream.pos
      let origNumBindings := s.bindings.length
      match eval fuel expr s.doNotRecordFailures with
      | none => none
      | some (ans, s1) =>
        let s2 := s1.doRecordFailures
        if ans then
          some (false, (s2.recordFailure origPos).truncateBindings origNumBindings)
        else
          some (true, s2.setPos origPos)
    | .lookahead expr =>
      let origPos := s.inputStream.pos
      match eval fuel expr s with
      | none => none
      | some (ans, s1) =>
        if ans then some (true, s1.setPos origPos)
        else some (false, s1)
    | .arr expr =>
      let nx := s.inputStream.next
      let s1 := { s with inputStream := nx.2 }
      match nx.1 with
      | some (.arr elems) =>
        let objInputStream := InputStream.newFor (.arr elems)
        match eval fuel expr (s1.pushInputStream objInputStream) with
        | none => none
        | some (ans0, s2) =>
          let ans := ans0 && s2.inputStream.atEnd
          some (ans, s2.popInputStream)
      | _ => some (false, s1)
    | .str expr =>
      let nx := s.inputStream.next
      let s1 := { s with inputStream := nx.2 }
      match nx.1 with
      | some (.str sv) =>
        let strInputStream := InputStream.newFor (.str sv)
        match eval fuel expr (s1.pushInputStream strInputStream) with
        | none => none
        | some (ans0, s2) =>
          if ans0 then
            match eval fuel .endExpr s2 with
            | none => none
            | some (ansEnd, s3) =>
              if ansEnd then
                some (true, { s3 with bindings := s3.bindings.dropLast }.popInputStream)
              else some (false, s3.popInputStream)
          else some (false, s2.popInputStream)
      | _ => some (false, s1)
    | .obj properties isLenient =>
      let origPos := s.inputStream.pos
      let nx := s.inputStream.next
      let s1 := { s with inputStream := nx.2 }
      match nx.1 with
      | some v =>
        if jsIsObjectLike v then
          match objPropsLoop fuel properties 0 v s1 with
          | none => none
          | some ((matchedAll, numOwnPropertiesMatched), s2) =>
            if !matchedAll then some (false, s2)
            else if isLenient then
              let remainder :=
                (jsOwnProps v).filter (fun pr => decide (propertiesIndexOf properties pr.1 < 0))
              let iv := InputStream.interval origPos s2.inputStream.pos
              some (true, s2.pushBinding (some (.terminalNode (.obj remainder) iv)))
            else
              some (numOwnPropertiesMatched == (jsOwnProps v).length, s2)
        else some (false, s1)
      | none => some (false, s1)
    | .apply ruleName ps id => applyEval fuel ruleName ps id s
termination_by structural fuel => fuel

/-- The ordered-choice loop of Alt._eval: the first succeeding term wins. -/
def altLoop : Nat → List PExpr → EvalState → Option (Bool × EvalState)
  | 0, _, _ => none
  | _fuel + 1, [], s => some (false, s)
  | fuel + 1, t :: ts, s =>
    match eval fuel t s with
    | none => none
    | some (true, s1) => some (true, s1)
    | some (false, s1) => altLoop fuel ts s1
termination_by structural fuel => fuel

/-- The left-to-right loop of Seq._eval: fails at the first failing factor. -/
def seqLoop : Nat → List PExpr → EvalState → Option (Bool × EvalState)
  | 0, _, _ => none
  | _fuel + 1, [], s => some (true, s)
  | fuel + 1, f :: fs, s =>
    match eval fuel f s with
    | none => none
    | some (true, s1) => seqLoop fuel fs s1
    | some (false, s1) => some (false, s1)
termination_by structural fuel => fuel

/-- The while-loop of Iter._eval: as long as the match count is below the
maximum and the inner expression succeeds, splice the last `arity` bindings
off the stack as a row and distribute it over the columns. -/
def iterLoop : Nat → PExpr → Nat → Option Nat → Nat → List (List (Option Node)) →
    EvalState → Option ((Nat × List (List (Option Node))) × EvalState)
  | 0, _, _, _, _, _, _ => none
  | fuel + 1, expr, arity, mx, numMatches, cols, s =>
    if ltMaxNum numMatches mx then
      match eval fuel expr s with
      | none => none
      | some (true, s1) =>
        let len := s1.bindings.length
        let row := s1.bindings.drop (len - arity)
        let s2 := { s1 with bindings := s1.bindings.take (len - arity) }
        iterLoop fuel expr arity mx (numMatches + 1) (distributeRow cols row) s2
      | some (false, s1) => some ((numMatches, cols), s1)
    else some ((numMatches, cols), s)
termination_by structural fuel => fuel

/-- The property loop of Obj._eval: for each declared property require
`hasOwnProperty`, then match its value with the property's pattern over the
singleton nested stream and require that stream to be at its end.  A failing
property makes the whole `_eval` return false (the count of matched own
properties is threaded for the strict check after the loop). -/
def objPropsLoop : Nat → List (String × PExpr) → Nat → JSVal → EvalState →
    Option ((Bool × Nat) × EvalState)
  | 0, _, _, _, _ => none
  | _fuel + 1, [], count, _, s => some ((true, count), s)
  | fuel + 1, (name, pattern) :: rest, count, v, s =>
    if jsHasOwnProperty v name then
      let value := jsGetProp v name
      let valueInputStream := InputStream.newForAtoms [value]
      match eval fuel pattern (s.pushInputStream valueInputStream) with
      | none => none
      | some (ansPat, s1) =>
        let matched := ansPat && s1.inputStream.atEnd
        let s2 := s1.popInputStream
        if matched then objPropsLoop fuel rest (count + 1) v s2
        else some ((false, count), s2)
    else some ((false, count), s)
termination_by structural fuel => fuel

/-- Modelled from the spec (§4.1): `state.skipSpaces()` (State.js is not
among the sources) — evaluate the grammar's whitespace application and
advance past its match, discarding the binding it pushed. -/
def skipSpaces : Nat → EvalState → Option EvalState
  | 0, _ => none
  | fuel + 1, s =>
    match eval fuel s.grammar.applySpaces s with
    | none => none
    | some (ans, s1) =>
      if ans then some { s1 with bindings := s1.bindings.dropLast }
      else some s1
termination_by structural fuel => fuel

/-- Modelled from the spec: `state.skipSpacesIfInSyntacticContext()` — skip
whitespace when the context is syntactic and return the (possibly advanced)
cursor, which the terminal `_eval`s use as their `origPos`. -/
def skipSpacesIfInSyntacticContext : Nat → EvalState → Option (Int × EvalState)
  | 0, _ => none
  | fuel + 1, s =>
    if s.inSyntacticContext then
      match skipSpaces fuel s with
      | none => none
      | some s1 => some (s1.inputStream.pos, s1)
    else some (s.inputStream.pos, s)
termination_by structural fuel => fuel

/-- Apply.prototype._eval (pexprs-eval.js, lines 314-341): substitute the
caller's actual arguments, optionally skip whitespace, then replay a memo hit,
detect left recursion (installing the seed placeholder and the LR frame), or
fall through to `reallyEval`.  Each completed application appends one ghost
log record. -/
def applyEval : Nat → String → List PExpr → Nat → EvalState →
    Option (Bool × EvalState)
  | 0, _, _, _, _ => none
  | fuel + 1, ruleName, ps, id, s =>
    let caller := s.currentApplication
    let actuals := match caller with
      | some c => EvalState.paramsOf c
      | none => []
    let app := substituteParams actuals (.apply ruleName ps id)
    let memoKey := toMemoKey app
    let skipCond :=
      !(applyIdentical app s.grammar.applySpaces)
        && (s.inSyntacticContext || app.isSyntactic)
    match (if skipCond then skipSpaces fuel s else some s) with
    | none => none
    | some s1 =>
      let pos0 := s1.inputStream.pos
      let origPosInfo := s1.getCurrentPosInfo
      match origPosInfo.memo.lookup memoKey with
      | some memoRec =>
        let r := useMemoizedResult s1 memoRec
        some (r.1, r.2.logApply
          { memoKey := memoKey, pos := pos0, ans := r.1, endPos := r.2.inputStream.pos })
      | none =>
        if origPosInfo.isActive app then
          let s2 := s1.writeMemo pos0 memoKey { pos := -1, value := none }
          let s3 := startLeftRecursion s2 pos0 app
          some (false, s3.logApply
            { memoKey := memoKey, pos := pos0, ans := false, endPos := s3.inputStream.pos })
        else
          match reallyEval fuel app caller.isNone s1 with
          | none => none
          | some (ans, s2) =>
            some (ans, s2.logApply
              { memoKey := memoKey, pos := pos0, ans := ans, endPos := s2.inputStream.pos })
termination_by structural fuel => fuel

/-- Apply.prototype.reallyEval (pexprs-eval.js, lines 343-409).  The body is
looked up in the rule dictionary (an unknown rule name is a crash here;
grammar validation — not among the sources — rejects it first, see
`validateAndEval`); the application is entered at the start position,
evaluated once, then the left-recursion head grows its seed, an involved
application skips memoization, and any other application memoizes its result;
finally the application is exited and, for a successful top-level application,
the end-of-input check runs and its synthetic binding is popped. -/
def reallyEval : Nat → PExpr → Bool → EvalState → Option (Bool × EvalState)
  | 0, _, _, _ => none
  | fuel + 1, app, isTopLevelApplication, s =>
    match app with
    | .apply ruleName _ _ =>
      let origPos := s.inputStream.pos
      match s.grammar.ruleDict.lookup ruleName with
      | none => none
      | some rule =>
        let s1 := posInfoEnter s origPos app
        let s2 := if rule.description.isSome then s1.doNotRecordFailures else s1
        match evalOnce fuel ruleName rule.body s2 with
        | none => none
        | some (value0, s3) =>
          let currentLR := (s3.posInfoAt origPos).currentLeftRecursion.head?
          let memoKey := toMemoKey app
          let afterMemo : Option (Option Node × EvalState) :=
            match currentLR with
            | some frame =>
              if applyIdentical app frame.headApplication then
                match growSeedResult fuel ruleName memoKey rule.body origPos value0 s3 with
                | none => none
                | some ((value, s4a), _, _) => some (value, endLeftRecursion s4a origPos)
              else if frame.isInvolved app then some (value0, s3)
              else some (value0, s3.writeMemo origPos memoKey
                { pos := s3.inputStream.pos, value := value0 })
            | none => some (value0, s3.writeMemo origPos memoKey
                { pos := s3.inputStream.pos, value := value0 })
          match afterMemo with
          | none => none
          | some (value, s4) =>
            let s5 :=
              if rule.description.isSome then
                let sa := s4.doRecordFailures
                if value.isNone then sa.recordFailure origPos else sa
              else s4
            let s6 := posInfoExit s5 origPos
            match value with
            | some v =>
              let s7 := s6.pushBinding (some v)
              if isTopLevelApplication then
                match (if app.isSyntactic then skipSpaces fuel s7 else some s7) with
                | none => none
                | some s8 =>
                  match eval fuel .endExpr s8 with
                  | none => none
                  | some (ansEnd, s9) =>
                    if ansEnd then
                      some (true, { s9 with bindings := s9.bindings.dropLast })
                    else some (false, s9)
              else some (true, s7)
            | none => some (false, s6)
    | _ => none
termination_by structural fuel => fuel

/-- Apply.prototype.evalOnce (pexprs-eval.js, lines 411-422): evaluate the
rule body once; on success splice the last `body.arity` bindings off the stack
as the children of a fresh rule node. -/
def evalOnce : Nat → String → PExpr → EvalState → Option (Option Node × EvalState)
  | 0, _, _, _ => none
  | fuel + 1, ruleName, body, s =>
    let origPos := s.inputStream.pos
    match eval fuel body s with
    | none => none
    | some (true, s1) =>
      let arity := getArity body
      let len := s1.bindings.length
      let childBindings := s1.bindings.drop (len - arity)
      let s2 := { s1 with bindings := s1.bindings.take (len - arity) }
      some (some (.node ruleName childBindings
        (InputStream.interval origPos s2.inputStream.pos)), s2)
    | some (false, s1) => some (none, s1)
termination_by structural fuel => fuel

/-- Apply.prototype.growSeedResult (pexprs-eval.js, lines 424-447): a falsy
seed returns false at once; otherwise the loop grows the seed and afterwards
the cursor is moved to the recorded position and the recorded value returned.
The extra results are ghost instrumentation: the list of positions committed
to `lrMemoRec.pos` in order, and the number of loop iterations. -/
def growSeedResult : Nat → String → String → PExpr → Int → Option Node →
    EvalState → Option ((Option Node × EvalState) × List Int × Nat)
  | 0, _, _, _, _, _, _ => none
  | fuel + 1, ruleName, memoKey, body, origPos, seedValue, s =>
    match seedValue with
    | none => some ((none, s), [], 0)
    | some _ =>
      match growLoop fuel ruleName memoKey body origPos s with
      | none => none
      | some ((s1, commits), iters) =>
        match s1.lookupMemo origPos memoKey with
        | none => none
        | some lrMemoRec =>
          some ((lrMemoRec.value, s1.setPos lrMemoRec.pos), commits, iters)
termination_by structural fuel => fuel

/-- The while-loop of growSeedResult: reset the cursor to `origPos`,
re-evaluate the body once, and stop when no further progress was made
(`pos <= lrMemoRec.pos`), else commit the longer match into the memo record
(which inner replays read through the memo table, as the source reads and
writes through the aliased record object).  Returns the state at the break,
the committed positions, and the iteration count. -/
def growLoop : Nat → String → String → PExpr → Int → EvalState →
    Option ((EvalState × List Int) × Nat)
  | 0, _, _, _, _, _ => none
  | fuel + 1, ruleName, memoKey, body, origPos, s =>
    match evalOnce fuel ruleName body (s.setPos origPos) with
    | none => none
    | some (newValue, s1) =>
      match s1.lookupMemo origPos memoKey with
      | none => none
      | some lrMemoRec =>
        if s1.inputStream.pos ≤ lrMemoRec.pos then some ((s1, []), 1)
        else
          let c := s1.inputStream.pos
          let s2 := s1.writeMemo origPos memoKey { pos := c, value := newValue }
          match growLoop fuel ruleName memoKey body origPos s2 with
          | none => none
          | some ((s3, commits), iters) => some ((s3, c :: commits), iters + 1)
termination_by structural fuel => fuel

end

/-! ### Association-list and PosInfo-table lemmas -/

theorem lookup_filter_ne {α β : Type} [BEq α] [LawfulBEq α] (k q : α) (hqk : q ≠ k)
    (l : List (α × β)) :
    (l.filter (fun p => !(p.1 == k))).lookup q = l.lookup q := by
  induction l with
  | nil => rfl
  | cons hd tl ih =>
    obtain ⟨a, b⟩ := hd
    by_cases h1 : a = k
    · subst h1
      have hq : (q == a) = false := beq_eq_false_iff_ne.mpr hqk
      simp [List.filter, List.lookup, hq, ih]
    · have ha : (a == k) = false := beq_eq_false_iff_ne.mpr h1
      by_cases hqa : q = a
      · subst hqa
        simp [List.filter, List.lookup, ha]
      · have hq : (q == a) = false := beq_eq_false_iff_ne.mpr hqa
        simp [List.filter, List.lookup, ha, hq, ih]

theorem lookup_alistInsert {α β : Type} [BEq α] [LawfulBEq α] [DecidableEq α] (k : α) (v : β)
    (l : List (α × β)) (q : α) :
    (alistInsert k v l).lookup q = if q = k then some v else l.lookup q := by
  by_cases hqk : q = k
  · subst hqk
    simp [alistInsert, List.lookup]
  · have hq : (q == k) = false := beq_eq_false_iff_ne.mpr hqk
    simp [alistInsert, List.lookup, hq, hqk, lookup_filter_ne k q hqk]

theorem posInfoAt_setPosInfoAt (s : EvalState) (p : Int) (pi : PosInfo) (q : Int) :
    (s.setPosInfoAt p pi).posInfoAt q = if q = p then pi else s.posInfoAt q := by
  simp only [EvalState.setPosInfoAt, EvalState.posInfoAt, lookup_alistInsert]
  split <;> rfl

theorem posInfoAt_modifyPosInfoAt (s : EvalState) (p : Int) (f : PosInfo → PosInfo)
    (q : Int) :
    (s.modifyPosInfoAt p f).posInfoAt q = if q = p then f (s.posInfoAt p) else s.posInfoAt q := by
  simp only [EvalState.modifyPosInfoAt, posInfoAt_setPosInfoAt]

theorem lookupMemo_writeMemo (s : EvalState) (p : Int) (k : String) (rec : MemoRec)
    (q : Int) (k' : String) :
    (s.writeMemo p k rec).lookupMemo q k' =
      if q = p ∧ k' = k then some rec else s.lookupMemo q k' := by
  simp only [EvalState.writeMemo, EvalState.lookupMemo, posInfoAt_modifyPosInfoAt]
  by_cases hq : q = p
  · subst hq
    simp [lookup_alistInsert]
  · simp [hq]

/-! ### The frame-effect invariant

`Effects s s'` collects the state components that every completed call of the
evaluator leaves unchanged: the identity of the active stream (its atom
sequence), the stack of outer streams, the application stacks of every
position of the active stream, the state-level application chain, the lexical
depth, the failure-suppression counter, the grammar, and — exactly — every
memo record already present.  `EffectsExcept p₀ k₀` weakens the last point at
the single pair `(p₀, k₀)`, which is the one record a left-recursion head (or
the final memoization of `reallyEval` itself) may overwrite. -/

structure Effects (s s' : EvalState) : Prop where
  source_eq : s'.inputStream.source = s.inputStream.source
  stack_eq : s'.inputStreamStack = s.inputStreamStack
  appStacks_eq : ∀ p, (s'.posInfoAt p).applicationStack = (s.posInfoAt p).applicationStack
  chain_eq : s'.applicationStack = s.applicationStack
  lex_eq : s'.lexicalContextDepth = s.lexicalContextDepth
  supp_eq : s'.failureSuppression = s.failureSuppression
  grammar_eq : s'.grammar = s.grammar
  memo_pres : ∀ p k r, s.lookupMemo p k = some r → s'.lookupMemo p k = some r

structure EffectsExcept (p₀ : Int) (k₀ : String) (s s' : EvalState) : Prop where
  source_eq : s'.inputStream.source = s.inputStream.source
  stack_eq : s'.inputStreamStack = s.inputStreamStack
  appStacks_eq : ∀ p, (s'.posInfoAt p).applicationStack = (s.posInfoAt p).applicationStack
  chain_eq : s'.applicationStack = s.applicationStack
  lex_eq : s'.lexicalContextDepth = s.lexicalContextDepth
  supp_eq : s'.failureSuppression = s.failureSuppression
  grammar_eq : s'.grammar = s.grammar
  memo_pres : ∀ p k r, s.lookupMemo p k = some r →
    (p = p₀ ∧ k = k₀) ∨ s'.lookupMemo p k = some r

theorem Effects.refl (s : EvalState) : Effects s s :=
  ⟨rfl, rfl, fun _ => rfl, rfl, rfl, rfl, rfl, fun _ _ _ h => h⟩

theorem Effects.trans {s t u : EvalState} (h1 : Effects s t) (h2 : Effects t u) :
    Effects s u :=
  ⟨h2.source_eq.trans h1.source_eq, h2.stack_eq.trans h1.stack_eq,
   fun p => (h2.appStacks_eq p).trans (h1.appStacks_eq p),
   h2.chain_eq.trans h1.chain_eq, h2.lex_eq.trans h1.lex_eq,
   h2.supp_eq.trans h1.supp_eq, h2.grammar_eq.trans h1.grammar_eq,
   fun p k r h => h2.memo_pres p k r (h1.memo_pres p k r h)⟩

theorem Effects.toExcept {s t : EvalState} (p₀ : Int) (k₀ : String) (h : Effects s t) :
    EffectsExcept p₀ k₀ s t :=
  ⟨h.source_eq, h.stack_eq, h.appStacks_eq, h.chain_eq, h.lex_eq, h.supp_eq,
   h.grammar_eq, fun p k r hm => Or.inr (h.memo_pres p k r hm)⟩

theorem Effects.transExcept {p₀ : Int} {k₀ : String} {s t u : EvalState}
    (h1 : Effects s t) (h2 : EffectsExcept p₀ k₀ t u) : EffectsExcept p₀ k₀ s u :=
  ⟨h2.source_eq.trans h1.source_eq, h2.stack_eq.trans h1.stack_eq,
   fun p => (h2.appStacks_eq p).trans (h1.appStacks_eq p),
   h2.chain_eq.trans h1.chain_eq, h2.lex_eq.trans h1.lex_eq,
   h2.supp_eq.trans h1.supp_eq, h2.grammar_eq.trans h1.grammar_eq,
   fun p k r h => h2.memo_pres p k r (h1.memo_pres p k r h)⟩

theorem EffectsExcept.transEffects {p₀ : Int} {k₀ : String} {s t u : EvalState}
    (h1 : EffectsExcept p₀ k₀ s t) (h2 : Effects t u) : EffectsExcept p₀ k₀ s u :=
  ⟨h2.source_eq.trans h1.source_eq, h2.stack_eq.trans h1.stack_eq,
   fun p => (h2.appStacks_eq p).trans (h1.appStacks_eq p),
   h2.chain_eq.trans h1.chain_eq, h2.lex_eq.trans h1.lex_eq,
   h2.supp_eq.trans h1.supp_eq, h2.grammar_eq.trans h1.grammar_eq,
   fun p k r h => match h1.memo_pres p k r h with
     | Or.inl he => Or.inl he
     | Or.inr hm => Or.inr (h2.memo_pres p k r hm)⟩

/-! Per-operation `Effects` lemmas.  Each helper that only touches the cursor,
the bindings, the failures, the log or the left-recursion frames leaves every
`Effects` component untouched. -/

theorem effects_setPos (s : EvalState) (p : Int) : Effects s (s.setPos p) :=
  ⟨rfl, rfl, fun _ => rfl, rfl, rfl, rfl, rfl, fun _ _ _ h => h⟩

theorem effects_pushBinding (s : EvalState) (n : Option Node) :
    Effects s (s.pushBinding n) :=
  ⟨rfl, rfl, fun _ => rfl, rfl, rfl, rfl, rfl, fun _ _ _ h => h⟩

theorem effects_truncateBindings (s : EvalState) (n : Nat) :
    Effects s (s.truncateBindings n) :=
  ⟨rfl, rfl, fun _ => rfl, rfl, rfl, rfl, rfl, fun _ _ _ h => h⟩

theorem effects_recordFailure (s : EvalState) (p : Int) :
    Effects s (s.recordFailure p) := by
  unfold EvalState.recordFailure
  split
  · exact ⟨rfl, rfl, fun _ => rfl, rfl, rfl, rfl, rfl, fun _ _ _ h => h⟩
  · exact Effects.refl s

theorem effects_logApply (s : EvalState) (e : ApplyLogEntry) :
    Effects s (s.logApply e) :=
  ⟨rfl, rfl, fun _ => rfl, rfl, rfl, rfl, rfl, fun _ _ _ h => h⟩

theorem effects_dropLastBinding (s : EvalState) :
    Effects s { s with bindings := s.bindings.dropLast } :=
  ⟨rfl, rfl, fun _ => rfl, rfl, rfl, rfl, rfl, fun _ _ _ h => h⟩

theorem effects_withNextStream (s : EvalState) :
    Effects s { s with inputStream := (s.inputStream.next).2 } := by
  unfold InputStream.next
  split
  · exact ⟨rfl, rfl, fun _ => rfl, rfl, rfl, rfl, rfl, fun _ _ _ h => h⟩
  · exact ⟨rfl, rfl, fun _ => rfl, rfl, rfl, rfl, rfl, fun _ _ _ h => h⟩

theorem effects_startLeftRecursion (s : EvalState) (p : Int) (app : PExpr) :
    Effects s (startLeftRecursion s p app) := by
  refine ⟨rfl, rfl, fun q => ?_, rfl, rfl, rfl, rfl, fun q k r h => ?_⟩
  · unfold startLeftRecursion
    rw [posInfoAt_modifyPosInfoAt]
    split <;> simp_all
  · unfold startLeftRecursion EvalState.lookupMemo at h ⊢
    rw [posInfoAt_modifyPosInfoAt]
    split <;> simp_all

theorem effects_endLeftRecursion (s : EvalState) (p : Int) :
    Effects s (endLeftRecursion s p) := by
  refine ⟨rfl, rfl, fun q => ?_, rfl, rfl, rfl, rfl, fun q k r h => ?_⟩
  · unfold endLeftRecursion
    rw [posInfoAt_modifyPosInfoAt]
    split <;> simp_all
  · unfold endLeftRecursion EvalState.lookupMemo at h ⊢
    rw [posInfoAt_modifyPosInfoAt]
    split <;> simp_all

theorem effectsExcept_writeMemo (s : EvalState) (p : Int) (k : String) (rec : MemoRec) :
    EffectsExcept p k s (s.writeMemo p k rec) := by
  refine ⟨rfl, rfl, fun q => ?_, rfl, rfl, rfl, rfl, fun q k' r h => ?_⟩
  · unfold EvalState.writeMemo
    rw [posInfoAt_modifyPosInfoAt]
    split <;> simp_all
  · rw [lookupMemo_writeMemo]
    split
    · exact Or.inl (by tauto)
    · exact Or.inr h

theorem effects_writeMemo_of_absent (s : EvalState) (p : Int) (k : String)
    (rec : MemoRec) (habs : s.lookupMemo p k = none) :
    Effects s (s.writeMemo p k rec) := by
  refine ⟨rfl, rfl, fun q => ?_, rfl, rfl, rfl, rfl, fun q k' r h => ?_⟩
  · unfold EvalState.writeMemo
    rw [posInfoAt_modifyPosInfoAt]
    split <;> simp_all
  · rw [lookupMemo_writeMemo]
    split
    · rename_i hqk
      rw [hqk.1, hqk.2] at h
      rw [habs] at h
      exact absurd h (by simp)
    · exact h

theorem effects_useMemoizedResult (s : EvalState) (rec : MemoRec) :
    Effects s (useMemoizedResult s rec).2 := by
  unfold useMemoizedResult
  cases rec.value
  · exact effects_setPos s rec.pos
  · exact (effects_setPos s rec.pos).trans (effects_pushBinding _ _)

theorem EffectsExcept.transE {p₀ : Int} {k₀ : String} {s t u : EvalState}
    (h1 : EffectsExcept p₀ k₀ s t) (h2 : EffectsExcept p₀ k₀ t u) :
    EffectsExcept p₀ k₀ s u :=
  ⟨h2.source_eq.trans h1.source_eq, h2.stack_eq.trans h1.stack_eq,
   fun p => (h2.appStacks_eq p).trans (h1.appStacks_eq p),
   h2.chain_eq.trans h1.chain_eq, h2.lex_eq.trans h1.lex_eq,
   h2.supp_eq.trans h1.supp_eq, h2.grammar_eq.trans h1.grammar_eq,
   fun p k r h => match h1.memo_pres p k r h with
     | Or.inl he => Or.inl he
     | Or.inr hm => h2.memo_pres p k r hm⟩

theorem EffectsExcept.toEffects_of_absent {p₀ : Int} {k₀ : String} {s t : EvalState}
    (h : EffectsExcept p₀ k₀ s t) (habs : s.lookupMemo p₀ k₀ = none) : Effects s t :=
  ⟨h.source_eq, h.stack_eq, h.appStacks_eq, h.chain_eq, h.lex_eq, h.supp_eq,
   h.grammar_eq, fun p k r hm =>
     match h.memo_pres p k r hm with
     | Or.inl he => absurd (he.1 ▸ he.2 ▸ hm) (by rw [habs]; simp)
     | Or.inr hp => hp⟩

/-- A computation bracketed by `doNotRecordFailures` / `doRecordFailures`
(Not._eval, and the description handling of reallyEval) restores the
suppression counter. -/
theorem effects_around_suppression {s t : EvalState}
    (h : Effects s.doNotRecordFailures t) : Effects s t.doRecordFailures := by
  refine ⟨h.source_eq, h.stack_eq, h.appStacks_eq, h.chain_eq, ?_, ?_, h.grammar_eq,
    fun p k r hm => h.memo_pres p k r hm⟩
  · exact h.lex_eq
  · have hs := h.supp_eq
    simp only [EvalState.doNotRecordFailures] at hs
    simp only [EvalState.doRecordFailures, hs]
    omega

/-- A computation bracketed by `enterLexicalContext` / `exitLexicalContext`
(Lex._eval) restores the lexical depth. -/
theorem effects_around_lex {s t : EvalState}
    (h : Effects s.enterLexicalContext t) : Effects s t.exitLexicalContext := by
  refine ⟨h.source_eq, h.stack_eq, h.appStacks_eq, h.chain_eq, ?_, h.supp_eq,
    h.grammar_eq, fun p k r hm => h.memo_pres p k r hm⟩
  have hs := h.lex_eq
  simp only [EvalState.enterLexicalContext] at hs
  simp only [EvalState.exitLexicalContext, hs]
  omega

/-- A computation bracketed by `pushInputStream` / `popInputStream`
(Arr, Str and Obj): the nested stream is discarded and the saved outer stream
(whose table was frozen while it sat on the stack) becomes active again. -/
theorem effects_around_stream {s t : EvalState} (st : InputStream)
    (h : Effects (s.pushInputStream st) t) : Effects s t.popInputStream := by
  have hstack : t.inputStreamStack = s.inputStream :: s.inputStreamStack := h.stack_eq
  have hpop : t.popInputStream =
      { t with inputStream := s.inputStream, inputStreamStack := s.inputStreamStack } := by
    unfold EvalState.popInputStream
    rw [hstack]
  rw [hpop]
  exact ⟨rfl, rfl, fun _ => rfl, h.chain_eq, h.lex_eq, h.supp_eq, h.grammar_eq,
    fun _ _ _ hm => hm⟩

theorem effects_foldl_push (cols : List (List (Option Node))) (iv : Interval)
    (s : EvalState) :
    Effects s (cols.foldl
      (fun st col => st.pushBinding (some (.node "_iter" col iv))) s) := by
  suffices hgen : ∀ (cs : List (List (Option Node))) (σ : EvalState),
      Effects σ (cs.foldl
        (fun st col => st.pushBinding (some (.node "_iter" col iv))) σ) by
    exact hgen cols s
  intro cs
  induction cs with
  | nil => exact fun σ => Effects.refl σ
  | cons c cs ih =>
    intro σ
    exact (effects_pushBinding σ _).trans (ih _)

theorem posInfoAt_posInfoEnter (s : EvalState) (p : Int) (app : PExpr) (q : Int) :
    (posInfoEnter s p app).posInfoAt q =
      if q = p then
        { s.posInfoAt p with applicationStack :=
            (s.posInfoAt p).applicationStack ++ [toMemoKey app] }
      else s.posInfoAt q := by
  unfold posInfoEnter
  rw [posInfoAt_modifyPosInfoAt]
  rfl

theorem posInfoAt_posInfoExit (s : EvalState) (p : Int) (q : Int) :
    (posInfoExit s p).posInfoAt q =
      if q = p then
        { s.posInfoAt p with applicationStack := (s.posInfoAt p).applicationStack.dropLast }
      else s.posInfoAt q := by
  unfold posInfoExit
  rw [posInfoAt_modifyPosInfoAt]
  rfl

theorem lookupMemo_posInfoEnter (s : EvalState) (p : Int) (app : PExpr)
    (q : Int) (k : String) :
    (posInfoEnter s p app).lookupMemo q k = s.lookupMemo q k := by
  simp only [EvalState.lookupMemo, posInfoAt_posInfoEnter]
  split <;> simp_all

theorem lookupMemo_posInfoExit (s : EvalState) (p : Int) (q : Int) (k : String) :
    (posInfoExit s p).lookupMemo q k = s.lookupMemo q k := by
  simp only [EvalState.lookupMemo, posInfoAt_posInfoExit]
  split <;> simp_all

theorem effects_setBindings (s : EvalState) (b : List (Option Node)) :
    Effects s { s with bindings := b } :=
  ⟨rfl, rfl, fun _ => rfl, rfl, rfl, rfl, rfl, fun _ _ _ h => h⟩

/-- Replacing the active stream by one with the same atoms and the same
PosInfo table (only the cursor moved) preserves every `Effects` component. -/
theorem effects_setStream (s : EvalState) (is : InputStream)
    (hsrc : is.source = s.inputStream.source)
    (hpi : is.posInfos = s.inputStream.posInfos) :
    Effects s { s with inputStream := is } := by
  refine ⟨hsrc, rfl, fun q => ?_, rfl, rfl, rfl, rfl, fun p k r hm => ?_⟩
  · simp only [EvalState.posInfoAt, hpi]
  · simp only [EvalState.lookupMemo, EvalState.posInfoAt, hpi] at hm ⊢
    exact hm

theorem next_snd_source (is : InputStream) : (is.next).2.source = is.source := by
  unfold InputStream.next
  split <;> rfl

theorem next_snd_posInfos (is : InputStream) : (is.next).2.posInfos = is.posInfos := by
  unfold InputStream.next
  split <;> rfl

theorem matchExactly_snd_source (is : InputStream) (v : JSVal) :
    (is.matchExactly v).2.source = is.source := by
  unfold InputStream.matchExactly
  rcases hn : is.next with ⟨a, is1⟩
  have h1 : is1.source = is.source := by
    have := next_snd_source is
    rw [hn] at this
    exact this
  cases a <;> simpa using h1

theorem matchExactly_snd_posInfos (is : InputStream) (v : JSVal) :
    (is.matchExactly v).2.posInfos = is.posInfos := by
  unfold InputStream.matchExactly
  rcases hn : is.next with ⟨a, is1⟩
  have h1 : is1.posInfos = is.posInfos := by
    have := next_snd_posInfos is
    rw [hn] at this
    exact this
  cases a <;> simpa using h1

theorem matchChars_snd_source (cs : List Char) (is : InputStream) :
    (is.matchChars cs).2.source = is.source := by
  induction cs generalizing is with
  | nil => rfl
  | cons c cs ih =>
    unfold InputStream.matchChars
    rcases hn : is.next with ⟨a, is1⟩
    have h1 : is1.source = is.source := by
      have := next_snd_source is
      rw [hn] at this
      exact this
    cases a with
    | none => simpa using h1
    | some v =>
      by_cases hv : jsStrictEq v (.str (String.singleton c)) = true
      · simpa [hv] using (ih is1).trans h1
      · simp only [Bool.not_eq_true] at hv
        simpa [hv] using h1

theorem matchChars_snd_posInfos (cs : List Char) (is : InputStream) :
    (is.matchChars cs).2.posInfos = is.posInfos := by
  induction cs generalizing is with
  | nil => rfl
  | cons c cs ih =>
    unfold InputStream.matchChars
    rcases hn : is.next with ⟨a, is1⟩
    have h1 : is1.posInfos = is.posInfos := by
      have := next_snd_posInfos is
      rw [hn] at this
      exact this
    cases a with
    | none => simpa using h1
    | some v =>
      by_cases hv : jsStrictEq v (.str (String.singleton c)) = true
      · simpa [hv] using (ih is1).trans h1
      · simp only [Bool.not_eq_true] at hv
        simpa [hv] using h1

theorem matchString_snd_source (is : InputStream) (str : String) :
    (is.matchString str).2.source = is.source :=
  matchChars_snd_source str.data is

theorem matchString_snd_posInfos (is : InputStream) (str : String) :
    (is.matchString str).2.posInfos = is.posInfos :=
  matchChars_snd_posInfos str.data is

theorem exceptAround_suppression {p₀ : Int} {k₀ : String} {s t : EvalState}
    (h : EffectsExcept p₀ k₀ s.doNotRecordFailures t) :
    EffectsExcept p₀ k₀ s t.doRecordFailures := by
  refine ⟨h.source_eq, h.stack_eq, h.appStacks_eq, h.chain_eq, h.lex_eq, ?_,
    h.grammar_eq, fun p k r hm => h.memo_pres p k r hm⟩
  have hs := h.supp_eq
  simp only [EvalState.doNotRecordFailures] at hs
  simp only [EvalState.doRecordFailures, hs]
  omega

theorem dropLast_append_singleton {α : Type} (l : List α) (a : α) :
    (l ++ [a]).dropLast = l := by
  simp

theorem exceptAround_enterExit {p₀ : Int} {k₀ : String} {s t : EvalState}
    (p : Int) (app : PExpr)
    (h : EffectsExcept p₀ k₀ (posInfoEnter s p app) t) :
    EffectsExcept p₀ k₀ s (posInfoExit t p) := by
  refine ⟨h.source_eq, h.stack_eq, fun q => ?_, ?_, h.lex_eq, h.supp_eq,
    h.grammar_eq, fun q k r hm => ?_⟩
  · rw [posInfoAt_posInfoExit]
    have happ := h.appStacks_eq q
    rw [posInfoAt_posInfoEnter] at happ
    by_cases hq : q = p
    · subst hq
      simp only [if_pos rfl] at happ ⊢
      rw [happ]
      exact dropLast_append_singleton _ _
    · simp only [if_neg hq] at happ ⊢
      exact happ
  · have hc := h.chain_eq
    have : (posInfoEnter s p app).applicationStack = app :: s.applicationStack := rfl
    rw [this] at hc
    show t.applicationStack.tail = s.applicationStack
    rw [hc]
    rfl
  · have hm1 : (posInfoEnter s p app).lookupMemo q k = some r := by
      rw [lookupMemo_posInfoEnter]
      exact hm
    rcases h.memo_pres q k r hm1 with he | hp
    · exact Or.inl he
    · right
      rw [lookupMemo_posInfoExit]
      exact hp

/-- The central frame-effect theorem, one statement per function of the
evaluator, proved by one induction on the fuel.  Every completed call
preserves the `Effects` components; `reallyEval` and the seed-growing
functions may additionally rewrite the one memo record at their own
(position, memo-key) pair. -/
theorem effects_all : ∀ fuel : Nat,
    (∀ e s r, eval fuel e s = some r → Effects s r.2) ∧
    (∀ e s r, evalCore fuel e s = some r → Effects s r.2) ∧
    (∀ ts s r, altLoop fuel ts s = some r → Effects s r.2) ∧
    (∀ fs s r, seqLoop fuel fs s = some r → Effects s r.2) ∧
    (∀ e a mx n cols s r, iterLoop fuel e a mx n cols s = some r → Effects s r.2) ∧
    (∀ props c v s r, objPropsLoop fuel props c v s = some r → Effects s r.2) ∧
    (∀ s r, skipSpaces fuel s = some r → Effects s r) ∧
    (∀ s r, skipSpacesIfInSyntacticContext fuel s = some r → Effects s r.2) ∧
    (∀ rn ps id s r, applyEval fuel rn ps id s = some r → Effects s r.2) ∧
    (∀ app isTop s r, reallyEval fuel app isTop s = some r →
        EffectsExcept s.inputStream.pos (toMemoKey app) s r.2) ∧
    (∀ rn body s r, evalOnce fuel rn body s = some r → Effects s r.2) ∧
    (∀ rn k body op seed s r, growSeedResult fuel rn k body op seed s = some r →
        EffectsExcept op k s r.1.2) ∧
    (∀ rn k body op s r, growLoop fuel rn k body op s = some r →
        EffectsExcept op k s r.1.1) := by
  intro fuel
  induction fuel with
  | zero =>
    refine ⟨?_, ?_, ?_, ?_, ?_, ?_, ?_, ?_, ?_, ?_, ?_, ?_, ?_⟩
    · intro e s r h; simp [eval] at h
    · intro e s r h; simp [evalCore] at h
    · intro ts s r h; simp [altLoop] at h
    · intro fs s r h; simp [seqLoop] at h
    · intro e a mx n cols s r h; simp [iterLoop] at h
    · intro props c v s r h; simp [objPropsLoop] at h
    · intro s r h; simp [skipSpaces] at h
    · intro s r h; simp [skipSpacesIfInSyntacticContext] at h
    · intro rn ps id s r h; simp [applyEval] at h
    · intro app isTop s r h; simp [reallyEval] at h
    · intro rn body s r h; simp [evalOnce] at h
    · intro rn k body op seed s r h; simp [growSeedResult] at h
    · intro rn k body op s r h; simp [growLoop] at h
  | succ fuel ih =>
    obtain ⟨ihEval, ihCore, ihAlt, ihSeq, ihIter, ihObj, ihSkip, ihSkipISC, ihApply,
      ihReally, ihOnce, ihGrowSeed, ihGrowLoop⟩ := ih
    refine ⟨?_, ?_, ?_, ?_, ?_, ?_, ?_, ?_, ?_, ?_, ?_, ?_, ?_⟩
    -- eval: the save/restore wrapper
    · intro e s r h
      obtain ⟨ans, sF⟩ := r
      simp only [eval] at h
      cases hc : evalCore fuel e s with
      | none => rw [hc] at h; simp at h
      | some p =>
        obtain ⟨a1, s1⟩ := p
        rw [hc] at h
        have hcore := ihCore e s (a1, s1) hc
        cases a1 with
        | true =>
          simp at h
          obtain ⟨h1, h2⟩ := h
          subst h2
          exact hcore
        | false =>
          simp at h
          obtain ⟨h1, h2⟩ := h
          subst h2
          exact hcore.trans ((effects_setPos _ _).trans (effects_truncateBindings _ _))
    -- evalCore: dispatch over the 17 expression variants
    · intro e s r h
      obtain ⟨ans, sF⟩ := r
      cases e with
      | anything =>
        simp only [evalCore] at h
        split at h
        · simp at h
        · rename_i origPos s1 hskipEq
          have hskip : Effects s s1 := ihSkipISC _ _ hskipEq
          have hS2 : Effects s1 { s1 with inputStream := (s1.inputStream.next).2 } :=
            effects_setStream s1 _ (next_snd_source _) (next_snd_posInfos _)
          split at h
          · simp at h
            obtain ⟨h1, h2⟩ := h
            subst h2
            exact hskip.trans (hS2.trans (effects_recordFailure _ _))
          · simp at h
            obtain ⟨h1, h2⟩ := h
            subst h2
            exact hskip.trans (hS2.trans (effects_pushBinding _ _))
      | endExpr =>
        simp only [evalCore] at h
        split at h
        · simp at h
        · rename_i origPos s1 hskipEq
          have hskip : Effects s s1 := ihSkipISC _ _ hskipEq
          split at h
          · simp at h
            obtain ⟨h1, h2⟩ := h
            subst h2
            exact hskip.trans (effects_pushBinding _ _)
          · simp at h
            obtain ⟨h1, h2⟩ := h
            subst h2
            exact hskip.trans (effects_recordFailure _ _)
      | prim obj =>
        simp only [evalCore] at h
        split at h
        · simp at h
        · rename_i origPos s1 hskipEq
          have hskip : Effects s s1 := ihSkipISC _ _ hskipEq
          have hS2 : Effects s1 { s1 with inputStream := (s1.inputStream.matchExactly obj).2 } :=
            effects_setStream s1 _ (matchExactly_snd_source _ _) (matchExactly_snd_posInfos _ _)
          split at h
          · simp at h
            obtain ⟨h1, h2⟩ := h
            subst h2
            exact hskip.trans (hS2.trans (effects_recordFailure _ _))
          · simp at h
            obtain ⟨h1, h2⟩ := h
            subst h2
            exact hskip.trans (hS2.trans (effects_pushBinding _ _))
      | stringPrim obj =>
        simp only [evalCore] at h
        split at h
        · simp at h
        · rename_i origPos s1 hskipEq
          have hskip : Effects s s1 := ihSkipISC _ _ hskipEq
          have hS2 : Effects s1 { s1 with inputStream := (s1.inputStream.matchString obj).2 } :=
            effects_setStream s1 _ (matchString_snd_source _ _) (matchString_snd_posInfos _ _)
          split at h
          · simp at h
            obtain ⟨h1, h2⟩ := h
            subst h2
            exact hskip.trans (hS2.trans (effects_recordFailure _ _))
          · simp at h
            obtain ⟨h1, h2⟩ := h
            subst h2
            exact hskip.trans (hS2.trans (effects_pushBinding _ _))
      | range lo hi =>
        simp only [evalCore] at h
        split at h
        · simp at h
        · rename_i origPos s1 hskipEq
          have hskip : Effects s s1 := ihSkipISC _ _ hskipEq
          have hS2 : Effects s1 { s1 with inputStream := (s1.inputStream.next).2 } :=
            effects_setStream s1 _ (next_snd_source _) (next_snd_posInfos _)
          split at h
          · split at h
            · simp at h
              obtain ⟨h1, h2⟩ := h
              subst h2
              exact hskip.trans (hS2.trans (effects_pushBinding _ _))
            · simp at h
              obtain ⟨h1, h2⟩ := h
              subst h2
              exact hskip.trans (hS2.trans (effects_recordFailure _ _))
          · simp at h
            obtain ⟨h1, h2⟩ := h
            subst h2
            exact hskip.trans (hS2.trans (effects_recordFailure _ _))
      | unicodeChar pattern =>
        simp only [evalCore] at h
        split at h
        · simp at h
        · rename_i origPos s1 hskipEq
          have hskip : Effects s s1 := ihSkipISC _ _ hskipEq
          have hS2 : Effects s1 { s1 with inputStream := (s1.inputStream.next).2 } :=
            effects_setStream s1 _ (next_snd_source _) (next_snd_posInfos _)
          split at h
          · simp at h
            obtain ⟨h1, h2⟩ := h
            subst h2
            exact hskip.trans (hS2.trans (effects_recordFailure _ _))
          · split at h
            · simp at h
              obtain ⟨h1, h2⟩ := h
              subst h2
              exact hskip.trans (hS2.trans (effects_recordFailure _ _))
            · simp at h
              obtain ⟨h1, h2⟩ := h
              subst h2
              exact hskip.trans (hS2.trans (effects_pushBinding _ _))
      | param index =>
        simp only [evalCore] at h
        split at h
        · simp at h
        · rename_i caller hca
          split at h
          · simp at h
          · rename_i argExpr hget
            exact ihEval _ _ _ h
      | lex expr =>
        simp only [evalCore] at h
        split at h
        · simp at h
        · rename_i a1 s1 he
          simp at h
          obtain ⟨h1, h2⟩ := h
          subst h2
          exact effects_around_lex (ihEval _ _ _ he)
      | alt terms =>
        simp only [evalCore] at h
        exact ihAlt _ _ _ h
      | seq factors =>
        simp only [evalCore] at h
        exact ihSeq _ _ _ h
      | iter expr mn mx =>
        simp only [evalCore] at h
        split at h
        · simp at h
        · rename_i numMatches cols1 s1 hloop
          have hIter := ihIter _ _ _ _ _ _ _ hloop
          split at h
          · simp at h
            obtain ⟨h1, h2⟩ := h
            subst h2
            exact hIter
          · split at h
            · simp at h
            · rename_i iv hiv
              simp at h
              obtain ⟨h1, h2⟩ := h
              subst h2
              exact hIter.trans (effects_foldl_push _ _ _)
      | not expr =>
        simp only [evalCore] at h
        split at h
        · simp at h
        · rename_i a1 s1 he
          have hinner := ihEval _ _ _ he
          cases a1 with
          | true =>
            simp at h
            obtain ⟨h1, h2⟩ := h
            subst h2
            exact (effects_around_suppression hinner).trans
              ((effects_recordFailure _ _).trans (effects_truncateBindings _ _))
          | false =>
            simp at h
            obtain ⟨h1, h2⟩ := h
            subst h2
            exact (effects_around_suppression hinner).trans (effects_setPos _ _)
      | lookahead expr =>
        simp only [evalCore] at h
        split at h
        · simp at h
        · rename_i a1 s1 he
          have hinner := ihEval _ _ _ he
          cases a1 with
          | true =>
            simp at h
            obtain ⟨h1, h2⟩ := h
            subst h2
            exact hinner.trans (effects_setPos _ _)
          | false =>
            simp at h
            obtain ⟨h1, h2⟩ := h
            subst h2
            exact hinner
      | arr expr =>
        simp only [evalCore] at h
        have hS1 : Effects s { s with inputStream := (s.inputStream.next).2 } :=
          effects_setStream s _ (next_snd_source _) (next_snd_posInfos _)
        split at h
        · rename_i elems harr
          split at h
          · simp at h
          · rename_i a0 s2 he
            simp at h
            obtain ⟨h1, h2⟩ := h
            subst h2
            exact hS1.trans (effects_around_stream _ (ihEval _ _ _ he))
        · simp at h
          obtain ⟨h1, h2⟩ := h
          subst h2
          exact hS1
      | str expr =>
        simp only [evalCore] at h
        have hS1 : Effects s { s with inputStream := (s.inputStream.next).2 } :=
          effects_setStream s _ (next_snd_source _) (next_snd_posInfos _)
        split at h
        · rename_i sv hsv
          split at h
          · simp at h
          · rename_i a0 s2 he
            have hPush := ihEval _ _ _ he
            split at h
            · split at h
              · simp at h
              · rename_i ansEnd s3 hee
                have hEnd := ihEval _ _ _ hee
                split at h
                · simp at h
                  obtain ⟨h1, h2⟩ := h
                  subst h2
                  exact hS1.trans (effects_around_stream _
                    ((hPush.trans hEnd).trans (effects_setBindings _ _)))
                · simp at h
                  obtain ⟨h1, h2⟩ := h
                  subst h2
                  exact hS1.trans (effects_around_stream _ (hPush.trans hEnd))
            · simp at h
              obtain ⟨h1, h2⟩ := h
              subst h2
              exact hS1.trans (effects_around_stream _ hPush)
        · simp at h
          obtain ⟨h1, h2⟩ := h
          subst h2
          exact hS1
      | obj properties isLenient =>
        simp only [evalCore] at h
        have hS1 : Effects s { s with inputStream := (s.inputStream.next).2 } :=
          effects_setStream s _ (next_snd_source _) (next_snd_posInfos _)
        split at h
        · rename_i v hv
          split at h
          · split at h
            · simp at h
            · rename_i matchedAll cnt s2 hloop
              have hObjL := ihObj _ _ _ _ _ hloop
              split at h
              · simp at h
                obtain ⟨h1, h2⟩ := h
                subst h2
                exact hS1.trans hObjL
              · split at h
                · simp at h
                  obtain ⟨h1, h2⟩ := h
                  subst h2
                  exact hS1.trans (hObjL.trans (effects_pushBinding _ _))
                · simp at h
                  obtain ⟨h1, h2⟩ := h
                  subst h2
                  exact hS1.trans hObjL
          · simp at h
            obtain ⟨h1, h2⟩ := h
            subst h2
            exact hS1
        · simp at h
          obtain ⟨h1, h2⟩ := h
          subst h2
          exact hS1
      | apply ruleName ps id =>
        simp only [evalCore] at h
        exact ihApply _ _ _ _ _ h
    -- altLoop
    · intro ts s r h
      obtain ⟨ans, sF⟩ := r
      cases ts with
      | nil =>
        simp only [altLoop] at h
        simp at h
        obtain ⟨h1, h2⟩ := h
        subst h2
        exact Effects.refl s
      | cons t ts =>
        simp only [altLoop] at h
        cases he : eval fuel t s with
        | none => rw [he] at h; simp at h
        | some p =>
          obtain ⟨a1, s1⟩ := p
          rw [he] at h
          have h1 := ihEval _ _ _ he
          cases a1 with
          | true =>
            simp at h
            obtain ⟨hh1, hh2⟩ := h
            subst hh2
            exact h1
          | false =>
            exact h1.trans (ihAlt _ _ _ h)
    -- seqLoop
    · intro fs s r h
      obtain ⟨ans, sF⟩ := r
      cases fs with
      | nil =>
        simp only [seqLoop] at h
        simp at h
        obtain ⟨h1, h2⟩ := h
        subst h2
        exact Effects.refl s
      | cons f fs =>
        simp only [seqLoop] at h
        cases he : eval fuel f s with
        | none => rw [he] at h; simp at h
        | some p =>
          obtain ⟨a1, s1⟩ := p
          rw [he] at h
          have h1 := ihEval _ _ _ he
          cases a1 with
          | true =>
            exact h1.trans (ihSeq _ _ _ h)
          | false =>
            simp at h
            obtain ⟨hh1, hh2⟩ := h
            subst hh2
            exact h1
    -- iterLoop
    · intro e a mx n cols s r h
      obtain ⟨res, sF⟩ := r
      simp only [iterLoop] at h
      split at h
      · cases he : eval fuel e s with
        | none => rw [he] at h; simp at h
        | some p =>
          obtain ⟨a1, s1⟩ := p
          rw [he] at h
          have h1 := ihEval _ _ _ he
          cases a1 with
          | true =>
            exact (h1.trans (effects_setBindings _ _)).trans (ihIter _ _ _ _ _ _ _ h)
          | false =>
            simp at h
            obtain ⟨hh1, hh2⟩ := h
            subst hh2
            exact h1
      · simp at h
        obtain ⟨h1, h2⟩ := h
        subst h2
        exact Effects.refl s
    -- objPropsLoop
    · intro props c v s r h
      obtain ⟨res, sF⟩ := r
      cases props with
      | nil =>
        simp only [objPropsLoop] at h
        simp at h
        obtain ⟨h1, h2⟩ := h
        subst h2
        exact Effects.refl s
      | cons pr rest =>
        obtain ⟨name, pattern⟩ := pr
        simp only [objPropsLoop] at h
        split at h
        · split at h
          · simp at h
          · rename_i aP s1 heval
            have hstream := effects_around_stream _ (ihEval _ _ _ heval)
            split at h
            · exact hstream.trans (ihObj _ _ _ _ _ h)
            · simp at h
              obtain ⟨h1, h2⟩ := h
              subst h2
              exact hstream
        · simp at h
          obtain ⟨h1, h2⟩ := h
          subst h2
          exact Effects.refl s
    -- skipSpaces
    · intro s r h
      simp only [skipSpaces] at h
      cases he : eval fuel s.grammar.applySpaces s with
      | none => rw [he] at h; simp at h
      | some p =>
        obtain ⟨a1, s1⟩ := p
        rw [he] at h
        have h1 := ihEval _ _ _ he
        cases a1 with
        | true =>
          simp at h
          subst h
          exact h1.trans (effects_setBindings _ _)
        | false =>
          simp at h
          subst h
          exact h1
    -- skipSpacesIfInSyntacticContext
    · intro s r h
      obtain ⟨pos0, s1⟩ := r
      simp only [skipSpacesIfInSyntacticContext] at h
      split at h
      · cases hsk : skipSpaces fuel s with
        | none => rw [hsk] at h; simp at h
        | some s2 =>
          rw [hsk] at h
          simp at h
          obtain ⟨h1, h2⟩ := h
          subst h2
          exact ihSkip _ _ hsk
      · simp at h
        obtain ⟨h1, h2⟩ := h
        subst h2
        exact Effects.refl s
    -- applyEval
    · intro rn ps id s r h
      obtain ⟨ans, sF⟩ := r
      simp only [applyEval] at h
      split at h
      · simp at h
      · rename_i s1 hstep
        have hs1 : Effects s s1 := by
          split at hstep
          · exact ihSkip _ _ hstep
          · have he := Option.some.inj hstep
            subst he
            exact Effects.refl s
        split at h
        · rename_i memoRec hm
          simp at h
          obtain ⟨h1, h2⟩ := h
          subst h2
          exact hs1.trans ((effects_useMemoizedResult _ _).trans (effects_logApply _ _))
        · rename_i hm
          split at h
          · simp at h
            obtain ⟨h1, h2⟩ := h
            subst h2
            exact hs1.trans (((effects_writeMemo_of_absent _ _ _ _ hm).trans
              (effects_startLeftRecursion _ _ _)).trans (effects_logApply _ _))
          · split at h
            · simp at h
            · rename_i a2 s2 hre
              have hRE := ihReally _ _ _ _ hre
              simp at h
              obtain ⟨h1, h2⟩ := h
              subst h2
              exact hs1.trans ((hRE.toEffects_of_absent hm).trans (effects_logApply _ _))
    -- reallyEval
    · intro app isTop s r h
      obtain ⟨ans, sF⟩ := r
      cases app
      case apply rn ps id =>
        simp only [reallyEval] at h
        split at h
        · simp at h
        · rename_i rule hrule
          split at h
          · simp at h
          · rename_i value0 s3 honce
            have honceE := ihOnce _ _ _ _ honce
            split at h
            · simp at h
            · rename_i value s4 hmid
              have hexcmid : EffectsExcept s.inputStream.pos
                  (toMemoKey (PExpr.apply rn ps id)) s3 s4 := by
                split at hmid
                · rename_i frame hlr
                  split at hmid
                  · split at hmid
                    · simp at hmid
                    · rename_i value1 s4a cm it hgrow
                      have hG := ihGrowSeed _ _ _ _ _ _ _ hgrow
                      simp at hmid
                      obtain ⟨hm1, hm2⟩ := hmid
                      subst hm2
                      exact hG.transEffects (effects_endLeftRecursion _ _)
                  · split at hmid
                    · simp at hmid
                      obtain ⟨hm1, hm2⟩ := hmid
                      subst hm2
                      exact (Effects.refl s3).toExcept _ _
                    · simp at hmid
                      obtain ⟨hm1, hm2⟩ := hmid
                      subst hm2
                      exact effectsExcept_writeMemo _ _ _ _
                · rename_i hlr
                  simp at hmid
                  obtain ⟨hm1, hm2⟩ := hmid
                  subst hm2
                  exact effectsExcept_writeMemo _ _ _ _
              split at h
              · -- value = some v: push the rule node, then the top-level End check
                rename_i v hval
                have hfront : EffectsExcept s.inputStream.pos
                    (toMemoKey (PExpr.apply rn ps id)) s
                    (posInfoExit
                      (if rule.description.isSome = true then s4.doRecordFailures else s4)
                      s.inputStream.pos) := by
                  by_cases hdesc : rule.description.isSome = true
                  · rw [if_pos hdesc] at honceE ⊢
                    exact exceptAround_enterExit _ _
                      (exceptAround_suppression (honceE.transExcept hexcmid))
                  · rw [if_neg hdesc] at honceE ⊢
                    exact exceptAround_enterExit _ _ (honceE.transExcept hexcmid)
                cases isTop with
                | false =>
                  simp at h
                  obtain ⟨h1, h2⟩ := h
                  subst h2
                  exact hfront.transEffects (effects_pushBinding _ _)
                | true =>
                  rw [if_pos rfl] at h
                  split at h
                  · simp at h
                  · rename_i s8 hstep8
                    split at hstep8
                    · -- syntactic start rule: trailing whitespace skipped
                      have h78 := ihSkip _ _ hstep8
                      split at h
                      · simp at h
                      · rename_i ansEnd s9 hee
                        have h89 := ihEval _ _ _ hee
                        split at h
                        · simp at h
                          obtain ⟨h1, h2⟩ := h
                          subst h2
                          exact hfront.transEffects ((effects_pushBinding _ _).trans
                            (h78.trans (h89.trans (effects_setBindings _ _))))
                        · simp at h
                          obtain ⟨h1, h2⟩ := h
                          subst h2
                          exact hfront.transEffects ((effects_pushBinding _ _).trans
                            (h78.trans h89))
                    · -- lexical start rule: no whitespace skip
                      have he8 := Option.some.inj hstep8
                      subst he8
                      split at h
                      · simp at h
                      · rename_i ansEnd s9 hee
                        have h89 := ihEval _ _ _ hee
                        split at h
                        · simp at h
                          obtain ⟨h1, h2⟩ := h
                          subst h2
                          exact hfront.transEffects ((effects_pushBinding _ _).trans
                            (h89.trans (effects_setBindings _ _)))
                        · simp at h
                          obtain ⟨h1, h2⟩ := h
                          subst h2
                          exact hfront.transEffects ((effects_pushBinding _ _).trans h89)
              · -- value = none: the application failed
                rename_i hval
                simp at h
                obtain ⟨h1, h2⟩ := h
                subst h2
                by_cases hdesc : rule.description.isSome = true
                · rw [if_pos hdesc] at honceE ⊢
                  exact exceptAround_enterExit _ _
                    ((exceptAround_suppression (honceE.transExcept hexcmid)).transEffects
                      (effects_recordFailure _ _))
                · rw [if_neg hdesc] at honceE ⊢
                  exact exceptAround_enterExit _ _ (honceE.transExcept hexcmid)
      all_goals simp [reallyEval] at h
    -- evalOnce
    · intro rn body s r h
      obtain ⟨value, sF⟩ := r
      simp only [evalOnce] at h
      cases he : eval fuel body s with
      | none => rw [he] at h; simp at h
      | some p =>
        obtain ⟨a1, s1⟩ := p
        rw [he] at h
        have h1 := ihEval _ _ _ he
        cases a1 with
        | true =>
          simp at h
          obtain ⟨hh1, hh2⟩ := h
          subst hh2
          exact h1.trans (effects_setBindings _ _)
        | false =>
          simp at h
          obtain ⟨hh1, hh2⟩ := h
          subst hh2
          exact h1
    -- growSeedResult
    · intro rn k body op seed s r h
      obtain ⟨⟨value, sG⟩, commits, iters⟩ := r
      cases seed with
      | none =>
        simp only [growSeedResult] at h
        have h2 : s = sG := congrArg (fun x => x.1.2) (Option.some.inj h)
        subst h2
        exact (Effects.refl s).toExcept _ _
      | some seedNode =>
        simp only [growSeedResult] at h
        split at h
        · simp at h
        · rename_i s1 commits1 iters1 hloop
          split at h
          · simp at h
          · rename_i lrMemoRec hrec
            have hL := ihGrowLoop _ _ _ _ _ _ hloop
            simp at h
            obtain ⟨⟨h1, h2⟩, h3, h4⟩ := h
            subst h2
            exact hL.transEffects (effects_setPos _ _)
    -- growLoop
    · intro rn k body op s r h
      obtain ⟨⟨sG, commits⟩, iters⟩ := r
      simp only [growLoop] at h
      split at h
      · simp at h
      · rename_i newValue s1 heval
        have h1 : Effects s s1 := (effects_setPos s op).trans (ihOnce _ _ _ _ heval)
        split at h
        · simp at h
        · rename_i lrMemoRec hrec
          split at h
          · simp at h
            obtain ⟨⟨h2, h3⟩, h4⟩ := h
            subst h2
            exact h1.toExcept _ _
          · split at h
            · simp at h
            · rename_i s2 commits1 iters1 hloop
              have hL := ihGrowLoop _ _ _ _ _ _ hloop
              simp at h
              obtain ⟨⟨h2, h3⟩, h4⟩ := h
              subst h2
              exact (h1.transExcept (effectsExcept_writeMemo _ _ _ _)).transE hL

/-! ### Corollaries of the frame-effect theorem -/

theorem eval_effects {fuel : Nat} {e : PExpr} {s : EvalState} {r : Bool × EvalState}
    (h : eval fuel e s = some r) : Effects s r.2 :=
  (effects_all fuel).1 e s r h

theorem evalCore_effects {fuel : Nat} {e : PExpr} {s : EvalState} {r : Bool × EvalState}
    (h : evalCore fuel e s = some r) : Effects s r.2 :=
  (effects_all fuel).2.1 e s r h

theorem reallyEval_effects {fuel : Nat} {app : PExpr} {isTop : Bool} {s : EvalState}
    {r : Bool × EvalState} (h : reallyEval fuel app isTop s = some r) :
    EffectsExcept s.inputStream.pos (toMemoKey app) s r.2 :=
  (effects_all fuel).2.2.2.2.2.2.2.2.2.1 app isTop s r h

theorem evalOnce_effects {fuel : Nat} {rn : String} {body : PExpr} {s : EvalState}
    {r : Option Node × EvalState} (h : evalOnce fuel rn body s = some r) : Effects s r.2 :=
  (effects_all fuel).2.2.2.2.2.2.2.2.2.2.1 rn body s r h

theorem skipSpaces_effects {fuel : Nat} {s r : EvalState} (h : skipSpaces fuel s = some r) :
    Effects s r :=
  (effects_all fuel).2.2.2.2.2.2.1 s r h

theorem truncateBindings_length (s : EvalState) (n : Nat) :
    (s.truncateBindings n).bindings.length = n := by
  simp [EvalState.truncateBindings]
  omega

/-! ### Concrete fixtures

Small grammars and states used to exercise the evaluator on concrete inputs
(for witnesses and counterexamples). -/

/-- Modelled from the spec (§3, §5): a fresh evaluation state for one
top-level parse of the given input. -/
def initialState (g : Grammar) (input : List JSVal) : EvalState :=
  { inputStream := { source := input, pos := 0, posInfos := [] }
    inputStreamStack := []
    bindings := []
    applicationStack := []
    lexicalContextDepth := 0
    failureSuppression := 0
    failures := []
    grammar := g
    applyLog := [] }

/-- The whitespace application of the test grammars.  The test rules are all
lexical (lowercase), so it is never evaluated. -/
def spacesApplyFixture : PExpr := .apply "spaces" [] 999

/-- Grammar with the single rule `b = "a"`. -/
def trivGrammar : Grammar :=
  { ruleDict := [("b", { body := .stringPrim "a", description := none })]
    applySpaces := spacesApplyFixture }

/-- Fresh state over the input "a" with the trivial grammar. -/
def stateA : EvalState := initialState trivGrammar (stringAtoms "a")

/-- The body of the directly left-recursive rule `a = a "x" | "y"`. -/
def lrBody : PExpr :=
  .alt [.seq [.apply "a" [] 2, .stringPrim "x"], .stringPrim "y"]

/-- Grammar with the single directly left-recursive rule `a = a "x" | "y"`
(the Apply node inside the body carries id 2; top-level applications use a
different id, as every distinct Apply object must). -/
def lrGrammar : Grammar :=
  { ruleDict := [("a", { body := lrBody, description := none })]
    applySpaces := spacesApplyFixture }

/-! ### Claim C1 -/

/-- Claim C1: for every expression `e` and every evaluation state `s`, if
`e.eval(s)` returns false, then after the call the bindings stack has exactly
its pre-call length and the input position of the current stream equals its
pre-call value (and it is the same stream: same atom sequence, same stack of
outer streams). -/
theorem eval_failure_restores_state (fuel : Nat) (e : PExpr) (s s' : EvalState)
    (h : eval fuel e s = some (false, s')) :
    s'.bindings.length = s.bindings.length ∧
    s'.inputStream.pos = s.inputStream.pos ∧
    s'.inputStream.source = s.inputStream.source ∧
    s'.inputStreamStack = s.inputStreamStack := by
  cases fuel with
  | zero => simp [eval] at h
  | succ fuel =>
    simp only [eval] at h
    split at h
    · simp at h
    · rename_i a1 s1 hc
      have hcore := evalCore_effects hc
      cases a1 with
      | true => simp at h
      | false =>
        simp at h
        subst h
        exact ⟨truncateBindings_length _ _, rfl, hcore.source_eq, hcore.stack_eq⟩

/-- The state left by the failing evaluation of `"b"` against the input "a". -/
def c1FailState : EvalState :=
  ((eval 6 (.stringPrim "b") stateA).getD (false, stateA)).2

theorem eval_failure_restores_state_witness :
    eval 6 (.stringPrim "b") stateA = some (false, c1FailState) ∧
    c1FailState.bindings.length = stateA.bindings.length ∧
    c1FailState.inputStream.pos = stateA.inputStream.pos ∧
    c1FailState.inputStream.source = stateA.inputStream.source ∧
    c1FailState.inputStreamStack = stateA.inputStreamStack :=
  ⟨rfl, eval_failure_restores_state 6 (.stringPrim "b") stateA c1FailState rfl⟩

/-! ### Claim C9 -/

/-- Claim C9: `reallyEval` pairs its `enter` on the current position's
application stack with exactly one `exit` before returning, on success and on
failure alike: after any completed rule application every position's
applicationStack holds exactly the same memo keys as before, and the
state-level application chain is unchanged. -/
theorem reallyEval_balances_application_stacks (fuel : Nat) (app : PExpr)
    (isTop : Bool) (s : EvalState) (r : Bool × EvalState)
    (h : reallyEval fuel app isTop s = some r) :
    (∀ p, (r.2.posInfoAt p).applicationStack = (s.posInfoAt p).applicationStack) ∧
    r.2.applicationStack = s.applicationStack := by
  have hx := reallyEval_effects h
  exact ⟨hx.appStacks_eq, hx.chain_eq⟩

/-- The result of a concrete successful rule application. -/
def c9Result : Bool × EvalState :=
  (reallyEval 8 (.apply "b" [] 1) false stateA).getD (false, stateA)

theorem reallyEval_balances_application_stacks_witness :
    reallyEval 8 (.apply "b" [] 1) false stateA = some c9Result ∧
    (c9Result.2.posInfoAt 0).applicationStack = (stateA.posInfoAt 0).applicationStack ∧
    c9Result.2.applicationStack = stateA.applicationStack :=
  ⟨rfl,
   (reallyEval_balances_application_stacks 8 (.apply "b" [] 1) false stateA c9Result rfl).1 0,
   (reallyEval_balances_application_stacks 8 (.apply "b" [] 1) false stateA c9Result rfl).2⟩

/-! ### Claim C10 -/

/-- Claim C10: every nested input stream pushed by Arr, Str or Obj is popped
before `_eval` returns, on success and on failure alike: afterwards
`state.inputStream` is the same stream as before the call (same atom
sequence) and the rest of the stream stack is unchanged. -/
theorem nested_input_streams_balanced (fuel : Nat) (s : EvalState) :
    (∀ e r, evalCore fuel (.arr e) s = some r →
      r.2.inputStream.source = s.inputStream.source ∧
      r.2.inputStreamStack = s.inputStreamStack) ∧
    (∀ e r, evalCore fuel (.str e) s = some r →
      r.2.inputStream.source = s.inputStream.source ∧
      r.2.inputStreamStack = s.inputStreamStack) ∧
    (∀ props isLenient r, evalCore fuel (.obj props isLenient) s = some r →
      r.2.inputStream.source = s.inputStream.source ∧
      r.2.inputStreamStack = s.inputStreamStack) := by
  refine ⟨?_, ?_, ?_⟩
  · intro e r h
    have hx := evalCore_effects h
    exact ⟨hx.source_eq, hx.stack_eq⟩
  · intro e r h
    have hx := evalCore_effects h
    exact ⟨hx.source_eq, hx.stack_eq⟩
  · intro props isLenient r h
    have hx := evalCore_effects h
    exact ⟨hx.source_eq, hx.stack_eq⟩

/-- A fresh state whose single atom is the array [1]. -/
def arrState : EvalState := initialState trivGrammar [.arr [.num 1]]

/-- The result of matching Arr(anything) against that atom. -/
def c10Result : Bool × EvalState :=
  (evalCore 10 (.arr .anything) arrState).getD (false, arrState)

theorem nested_input_streams_balanced_witness :
    evalCore 10 (.arr .anything) arrState = some c10Result ∧
    c10Result.2.inputStream.source = arrState.inputStream.source ∧
    c10Result.2.inputStreamStack = arrState.inputStreamStack :=
  ⟨rfl, (nested_input_streams_balanced 10 arrState).1 .anything c10Result rfl⟩

/-! ### Claim C4 -/

theorem growSeedResult_effects {fuel : Nat} {rn k : String} {body : PExpr} {op : Int}
    {seed : Option Node} {s : EvalState} {r : (Option Node × EvalState) × List Int × Nat}
    (h : growSeedResult fuel rn k body op seed s = some r) : EffectsExcept op k s r.1.2 :=
  (effects_all fuel).2.2.2.2.2.2.2.2.2.2.2.1 rn k body op seed s r h

/-- A successful evaluation of the `end` expression leaves the cursor at the
length of the active stream; and outside a syntactic context (where no
whitespace is skipped) it does nothing but push the one synthetic
TerminalNode. -/
theorem eval_end_true {fuel : Nat} {s s' : EvalState}
    (h : eval fuel .endExpr s = some (true, s')) :
    s'.inputStream.pos = (s'.inputStream.source.length : Int) ∧
    (s.inSyntacticContext = false →
      ∃ iv, s' = s.pushBinding (some (.terminalNode .undefined iv))) := by
  cases fuel with
  | zero => simp [eval] at h
  | succ fuel =>
    simp only [eval] at h
    split at h
    · simp at h
    · rename_i a1 s1 hc
      cases a1 with
      | false => simp at h
      | true =>
        simp at h
        subst h
        cases fuel with
        | zero => simp [evalCore] at hc
        | succ fuel =>
          simp only [evalCore] at hc
          split at hc
          · simp at hc
          · rename_i origPos s2 hskip
            split at hc
            · rename_i hat
              simp at hc
              subst hc
              constructor
              · simp only [InputStream.atEnd] at hat
                have : s2.inputStream.pos = (s2.inputStream.source.length : Int) := by
                  exact_mod_cast beq_iff_eq.mp hat
                exact this
              · intro hctx
                cases fuel with
                | zero => simp [skipSpacesIfInSyntacticContext] at hskip
                | succ fuel =>
                  simp only [skipSpacesIfInSyntacticContext] at hskip
                  rw [hctx] at hskip
                  simp at hskip
                  obtain ⟨hs1, hs2⟩ := hskip
                  subst hs2
                  exact ⟨_, rfl⟩
            · simp at hc

/-- A successful evalOnce returns a rule node labelled with the rule's name
(the fresh node spliced over the body's bindings). -/
theorem evalOnce_some_shape {fuel : Nat} {rn : String} {body : PExpr} {s : EvalState}
    {v : Node} {s' : EvalState} (h : evalOnce fuel rn body s = some (some v, s')) :
    ∃ children iv, v = Node.node rn children iv := by
  cases fuel with
  | zero => simp [evalOnce] at h
  | succ fuel =>
    simp only [evalOnce] at h
    split at h
    · simp at h
    · rename_i s1
      simp at h
      obtain ⟨h1, h2⟩ := h
      exact ⟨_, _, h1.symm⟩
    · rename_i s1
      simp at h

/-- A freshly allocated application object (id 0) is never identical to any
other application reference. -/
theorem applyIdentical_id_zero (rn : String) (ps : List PExpr) (x : PExpr) :
    applyIdentical (PExpr.apply rn ps 0) x = false := by
  cases x <;> simp [applyIdentical]

/-- Restoring the failure-recording mode keeps the grammar. -/
theorem recordFailure_grammar (s : EvalState) (q : Int) :
    (s.recordFailure q).grammar = s.grammar := by
  unfold EvalState.recordFailure
  split <;> rfl

/-- Claim C4: a successful top-level Apply (one evaluated with no calling
application, `isTopLevelApplication = true`, on a fresh application object —
id 0, as the match entry point constructs it) leaves the cursor at the length
of the input (trailing whitespace for a syntactic start rule having been
consumed before the End check), and contributes exactly the one root node: in
the state `s8` probed by the End check the top binding is a rule node of the
start rule (the root), the End check pushes exactly one synthetic
`TerminalNode undefined` binding, and the final bindings equal `s8`'s — the
synthetic binding is popped, so the root stays on top.  For a syntactic start
rule the hypothesis `hsp` supplies the whitespace-skipping contract of the
spec (the skip leaves the bindings stack as it found it); for a lexical start
rule it is vacuous. -/
theorem topLevel_apply_consumes_all_input (fuel : Nat) (rn : String) (ps : List PExpr)
    (s s' : EvalState)
    (h : reallyEval (fuel + 1) (.apply rn ps 0) true s = some (true, s'))
    (hchain : s.applicationStack = [])
    (hsp : (PExpr.apply rn ps 0).isSyntactic = true →
      ∀ t t', t.grammar = s.grammar → skipSpaces fuel t = some t' →
        t'.bindings = t.bindings) :
    s'.inputStream.pos = (s'.inputStream.source.length : Int) ∧
    ∃ s8 children iv iv2,
      s8.bindings.getLast? = some (some (Node.node rn children iv)) ∧
      eval fuel .endExpr s8 =
        some (true, s8.pushBinding (some (.terminalNode .undefined iv2))) ∧
      s'.bindings = s8.bindings := by
  simp only [reallyEval] at h
  split at h
  · simp at h
  · rename_i rule hrule
    split at h
    · simp at h
    · rename_i value0 s3 honce
      have honceE := evalOnce_effects honce
      split at h
      · simp at h
      · rename_i value s4 hmid
        have hmid2 : value0 = value ∧ s4.applicationStack = s3.applicationStack ∧
            s4.grammar = s3.grammar := by
          split at hmid
          · rename_i frame hlr
            split at hmid
            · rename_i hident
              rw [applyIdentical_id_zero] at hident
              simp at hident
            · split at hmid
              · simp at hmid
                obtain ⟨hm1, hm2⟩ := hmid
                subst hm2
                exact ⟨hm1, rfl, rfl⟩
              · simp at hmid
                obtain ⟨hm1, hm2⟩ := hmid
                subst hm2
                exact ⟨hm1, rfl, rfl⟩
          · rename_i hlr
            simp at hmid
            obtain ⟨hm1, hm2⟩ := hmid
            subst hm2
            exact ⟨hm1, rfl, rfl⟩
        obtain ⟨hval0, hchain4, hgram4⟩ := hmid2
        have hS2chain :
            (if rule.description.isSome = true then
              (posInfoEnter s s.inputStream.pos (PExpr.apply rn ps 0)).doNotRecordFailures
            else posInfoEnter s s.inputStream.pos (PExpr.apply rn ps 0)).applicationStack
              = PExpr.apply rn ps 0 :: s.applicationStack := by
          split <;> rfl
        have hS2gram :
            (if rule.description.isSome = true then
              (posInfoEnter s s.inputStream.pos (PExpr.apply rn ps 0)).doNotRecordFailures
            else posInfoEnter s s.inputStream.pos (PExpr.apply rn ps 0)).grammar
              = s.grammar := by
          split <;> rfl
        have hchain3 : s3.applicationStack = [PExpr.apply rn ps 0] := by
          rw [honceE.chain_eq, hS2chain, hchain]
        have hgram3 : s3.grammar = s.grammar := by
          rw [honceE.grammar_eq, hS2gram]
        split at h
        · -- value = some v
          rename_i v
          have hv0 : value0 = some v := hval0
          rw [hv0] at honce
          obtain ⟨children, iv, hveq⟩ := evalOnce_some_shape honce
          simp only [if_true] at h
          split at h
          · simp at h
          · rename_i s8 hstep8
            have h5gram :
                (if rule.description.isSome = true then
                  (if (some v).isNone = true then
                    (s4.doRecordFailures).recordFailure s.inputStream.pos
                  else s4.doRecordFailures)
                else s4).grammar = s4.grammar := by
              split
              · split
                · rw [recordFailure_grammar]
                  rfl
                · rfl
              · rfl
            have hgram7 :
                ((posInfoExit
                  (if rule.description.isSome = true then
                    (if (some v).isNone = true then
                      (s4.doRecordFailures).recordFailure s.inputStream.pos
                    else s4.doRecordFailures)
                  else s4) s.inputStream.pos).pushBinding (some v)).grammar
                  = s.grammar := by
              show (if rule.description.isSome = true then
                  (if (some v).isNone = true then
                    (s4.doRecordFailures).recordFailure s.inputStream.pos
                  else s4.doRecordFailures)
                else s4).grammar = s.grammar
              rw [h5gram, hgram4, hgram3]
            -- the chain of s8 is empty: enter was popped by exit, nothing else touches it
            have hchain8 : s8.applicationStack = [] := by
              have h7chain :
                  ((posInfoExit
                    (if rule.description.isSome = true then
                      (if (some v).isNone = true then
                        (s4.doRecordFailures).recordFailure s.inputStream.pos
                      else s4.doRecordFailures)
                    else s4) s.inputStream.pos).pushBinding (some v)).applicationStack
                    = [] := by
                  show (if rule.description.isSome = true then
                      (if (some v).isNone = true then
                        (s4.doRecordFailures).recordFailure s.inputStream.pos
                      else s4.doRecordFailures)
                    else s4).applicationStack.tail = []
                  have hq : (if rule.description.isSome = true then
                      (if (some v).isNone = true then
                        (s4.doRecordFailures).recordFailure s.inputStream.pos
                      else s4.doRecordFailures)
                    else s4).applicationStack = s4.applicationStack := by
                    split
                    · rfl
                    · rfl
                  rw [hq, hchain4, hchain3]
                  rfl
              split at hstep8
              · have hse := skipSpaces_effects hstep8
                exact hse.chain_eq.trans h7chain
              · have he8 := Option.some.inj hstep8
                rw [← he8]
                exact h7chain
            have hctx8 : s8.inSyntacticContext = false := by
              simp [EvalState.inSyntacticContext, EvalState.currentApplication, hchain8]
            have h8b : s8.bindings =
                (posInfoExit
                  (if rule.description.isSome = true then
                    (if (some v).isNone = true then
                      (s4.doRecordFailures).recordFailure s.inputStream.pos
                    else s4.doRecordFailures)
                  else s4) s.inputStream.pos).bindings ++ [some v] := by
              split at hstep8
              · rename_i hsynT
                rw [hsp hsynT _ _ hgram7 hstep8]
                rfl
              · have he8 := Option.some.inj hstep8
                rw [← he8]
                rfl
            split at h
            · simp at h
            · rename_i ansEnd s9 hee
              split at h
              · rename_i hAnsEnd
                simp at h
                subst h
                rw [hAnsEnd] at hee
                have hend := eval_end_true hee
                obtain ⟨iv2, h9⟩ := hend.2 hctx8
                refine ⟨hend.1, s8, children, iv, iv2, ?_, ?_, ?_⟩
                · rw [h8b, hveq]
                  exact List.getLast?_concat _
                · rw [h9] at hee
                  exact hee
                · show s9.bindings.dropLast = s8.bindings
                  rw [h9]
                  show (s8.bindings ++ [some (Node.terminalNode JSVal.undefined iv2)]).dropLast
                    = s8.bindings
                  exact dropLast_append_singleton _ _
              · simp at h
        · -- value = none: reallyEval returned false, contradiction
          simp at h

/-- Concrete final state of a successful top-level application of rule `b`
over the input "a" (used to witness the C4 theorem; the start application is
the fresh object id 0). -/
def c4State : EvalState :=
  ((reallyEval 9 (PExpr.apply "b" [] 0) true stateA).getD (false, stateA)).2

theorem topLevel_apply_consumes_all_input_witness :
    c4State.inputStream.pos = (c4State.inputStream.source.length : Int) ∧
    ∃ s8 children iv iv2,
      s8.bindings.getLast? = some (some (Node.node "b" children iv)) ∧
      eval 8 .endExpr s8 =
        some (true, s8.pushBinding (some (.terminalNode .undefined iv2))) ∧
      c4State.bindings = s8.bindings :=
  topLevel_apply_consumes_all_input 8 "b" [] stateA c4State rfl rfl
    (fun hsyn => absurd hsyn (by decide))

/-! ### Claim C2 -/

/-- Packrat idempotence as claimed: any two completed applications recorded in
the ghost log with the same memo key at the same input position agree on the
boolean outcome and on the final input position. -/
def packratIdempotent (log : List ApplyLogEntry) : Prop :=
  ∀ e1 ∈ log, ∀ e2 ∈ log,
    e1.memoKey = e2.memoKey → e1.pos = e2.pos →
    e1.ans = e2.ans ∧ e1.endPos = e2.endPos

instance : DecidablePred packratIdempotent := fun log =>
  decidable_of_iff
    (∀ e1 ∈ log, ∀ e2 ∈ log,
      e1.memoKey = e2.memoKey → e1.pos = e2.pos →
      e1.ans = e2.ans ∧ e1.endPos = e2.endPos)
    Iff.rfl

/-- The complete run of the left-recursive grammar `a = a "x" | "y"` on the
one-atom input "y", applying the start rule `a` at position 0. -/
def c2Run : Option (Bool × EvalState) :=
  eval 30 (PExpr.apply "a" [] 1) (initialState lrGrammar (stringAtoms "y"))

/-- The ghost application log of that run. -/
def c2Log : List ApplyLogEntry :=
  (c2Run.getD (false, initialState lrGrammar (stringAtoms "y"))).2.applyLog

/-- Claim C2, counterexample: in the run of the left-recursive grammar
`a = a "x" | "y"` on input "y", the pair (position 0, memo key "a") is applied
twice — the inner left-recursive occurrence fails at position 0 (the seed
placeholder installed by the left-recursion detection), while the outer
application succeeds ending at position 1 — so the claimed packrat idempotence
does not hold of this parse. -/
theorem packrat_idempotence_counterexample :
    c2Run.map Prod.fst = some true ∧
    c2Log = [⟨"a", 0, false, 0⟩, ⟨"a", 0, true, 1⟩] ∧
    ¬ packratIdempotent c2Log := by
  refine ⟨rfl, rfl, ?_⟩
  have h : c2Log = [⟨"a", 0, false, 0⟩, ⟨"a", 0, true, 1⟩] := rfl
  rw [h]
  decide

/-! ### The ghost-log/memo-write invariant

`LogEffects s s'` states that a completed call only appends to the ghost
application log, and that every change it makes to a memo record at a pair
(position, key) of the active stream is witnessed by one of the appended log
entries carrying exactly that key and position — every memo write of the
evaluator happens inside some `Apply._eval`, which logs one record for its
own pair on completion.  `LogEffectsExcept p₀ k₀` exempts the single pair a
left-recursion head (or the final memoization of `reallyEval`) may rewrite
before its own log entry is appended. -/

/-- A completed call appends `pre` to the ghost log, and any memo change at
(p, k) is witnessed by an entry of `pre` with that key and position. -/
def LogEffects (s s' : EvalState) : Prop :=
  ∃ pre, s'.applyLog = s.applyLog ++ pre ∧
    ∀ p k, s'.lookupMemo p k ≠ s.lookupMemo p k →
      ∃ e ∈ pre, e.memoKey = k ∧ e.pos = p

/-- As `LogEffects`, but the pair `(p₀, k₀)` may change unlogged. -/
def LogEffectsExcept (p₀ : Int) (k₀ : String) (s s' : EvalState) : Prop :=
  ∃ pre, s'.applyLog = s.applyLog ++ pre ∧
    ∀ p k, s'.lookupMemo p k ≠ s.lookupMemo p k →
      (p = p₀ ∧ k = k₀) ∨ ∃ e ∈ pre, e.memoKey = k ∧ e.pos = p

theorem LogEffects.reflL (s : EvalState) : LogEffects s s :=
  ⟨[], by simp, fun p k hne => absurd rfl hne⟩

theorem LogEffects.of_pure {s s' : EvalState}
    (hlog : s'.applyLog = s.applyLog)
    (hmemo : ∀ p k, s'.lookupMemo p k = s.lookupMemo p k) : LogEffects s s' :=
  ⟨[], by simp [hlog], fun p k hne => absurd (hmemo p k) hne⟩

theorem LogEffects.transL {s t u : EvalState}
    (h1 : LogEffects s t) (h2 : LogEffects t u) : LogEffects s u := by
  obtain ⟨p1, hl1, hm1⟩ := h1
  obtain ⟨p2, hl2, hm2⟩ := h2
  refine ⟨p1 ++ p2, by rw [hl2, hl1, List.append_assoc], fun p k hne => ?_⟩
  by_cases hmid : t.lookupMemo p k = s.lookupMemo p k
  · have hne2 : u.lookupMemo p k ≠ t.lookupMemo p k := by rw [hmid]; exact hne
    obtain ⟨e, he, hek, hep⟩ := hm2 p k hne2
    exact ⟨e, List.mem_append.mpr (Or.inr he), hek, hep⟩
  · obtain ⟨e, he, hek, hep⟩ := hm1 p k hmid
    exact ⟨e, List.mem_append.mpr (Or.inl he), hek, hep⟩

theorem LogEffects.toExceptL {s s' : EvalState} (p₀ : Int) (k₀ : String)
    (h : LogEffects s s') : LogEffectsExcept p₀ k₀ s s' := by
  obtain ⟨pre, hl, hm⟩ := h
  exact ⟨pre, hl, fun p k hne => Or.inr (hm p k hne)⟩

theorem LogEffects.transExceptL {p₀ : Int} {k₀ : String} {s t u : EvalState}
    (h1 : LogEffects s t) (h2 : LogEffectsExcept p₀ k₀ t u) :
    LogEffectsExcept p₀ k₀ s u := by
  obtain ⟨p1, hl1, hm1⟩ := h1
  obtain ⟨p2, hl2, hm2⟩ := h2
  refine ⟨p1 ++ p2, by rw [hl2, hl1, List.append_assoc], fun p k hne => ?_⟩
  by_cases hmid : t.lookupMemo p k = s.lookupMemo p k
  · have hne2 : u.lookupMemo p k ≠ t.lookupMemo p k := by rw [hmid]; exact hne
    rcases hm2 p k hne2 with he | ⟨e, he, hek, hep⟩
    · exact Or.inl he
    · exact Or.inr ⟨e, List.mem_append.mpr (Or.inr he), hek, hep⟩
  · obtain ⟨e, he, hek, hep⟩ := hm1 p k hmid
    exact Or.inr ⟨e, List.mem_append.mpr (Or.inl he), hek, hep⟩

theorem LogEffectsExcept.transLog {p₀ : Int} {k₀ : String} {s t u : EvalState}
    (h1 : LogEffectsExcept p₀ k₀ s t) (h2 : LogEffects t u) :
    LogEffectsExcept p₀ k₀ s u := by
  obtain ⟨p1, hl1, hm1⟩ := h1
  obtain ⟨p2, hl2, hm2⟩ := h2
  refine ⟨p1 ++ p2, by rw [hl2, hl1, List.append_assoc], fun p k hne => ?_⟩
  by_cases hmid : t.lookupMemo p k = s.lookupMemo p k
  · have hne2 : u.lookupMemo p k ≠ t.lookupMemo p k := by rw [hmid]; exact hne
    obtain ⟨e, he, hek, hep⟩ := hm2 p k hne2
    exact Or.inr ⟨e, List.mem_append.mpr (Or.inr he), hek, hep⟩
  · rcases hm1 p k hmid with he | ⟨e, he, hek, hep⟩
    · exact Or.inl he
    · exact Or.inr ⟨e, List.mem_append.mpr (Or.inl he), hek, hep⟩

theorem LogEffectsExcept.transSame {p₀ : Int} {k₀ : String} {s t u : EvalState}
    (h1 : LogEffectsExcept p₀ k₀ s t) (h2 : LogEffectsExcept p₀ k₀ t u) :
    LogEffectsExcept p₀ k₀ s u := by
  obtain ⟨p1, hl1, hm1⟩ := h1
  obtain ⟨p2, hl2, hm2⟩ := h2
  refine ⟨p1 ++ p2, by rw [hl2, hl1, List.append_assoc], fun p k hne => ?_⟩
  by_cases hmid : t.lookupMemo p k = s.lookupMemo p k
  · have hne2 : u.lookupMemo p k ≠ t.lookupMemo p k := by rw [hmid]; exact hne
    rcases hm2 p k hne2 with he | ⟨e, he, hek, hep⟩
    · exact Or.inl he
    · exact Or.inr ⟨e, List.mem_append.mpr (Or.inr he), hek, hep⟩
  · rcases hm1 p k hmid with he | ⟨e, he, hek, hep⟩
    · exact Or.inl he
    · exact Or.inr ⟨e, List.mem_append.mpr (Or.inl he), hek, hep⟩

theorem LogEffectsExcept.dischargeLog {p₀ : Int} {k₀ : String} {s t : EvalState}
    (h : LogEffectsExcept p₀ k₀ s t) (e : ApplyLogEntry)
    (hk : e.memoKey = k₀) (hp : e.pos = p₀) :
    LogEffects s (t.logApply e) := by
  obtain ⟨pre, hl, hm⟩ := h
  refine ⟨pre ++ [e], ?_, fun p k hne => ?_⟩
  · show t.applyLog ++ [e] = s.applyLog ++ (pre ++ [e])
    rw [hl, List.append_assoc]
  · have hne2 : t.lookupMemo p k ≠ s.lookupMemo p k := hne
    rcases hm p k hne2 with ⟨hpp, hkk⟩ | ⟨e2, he2, hek, hep⟩
    · exact ⟨e, List.mem_append.mpr (Or.inr (List.mem_singleton.mpr rfl)),
        by rw [hk, hkk], by rw [hp, hpp]⟩
    · exact ⟨e2, List.mem_append.mpr (Or.inl he2), hek, hep⟩

theorem logEffects_setPos (s : EvalState) (p : Int) : LogEffects s (s.setPos p) :=
  LogEffects.of_pure rfl (fun _ _ => rfl)

theorem logEffects_pushBinding (s : EvalState) (n : Option Node) :
    LogEffects s (s.pushBinding n) :=
  LogEffects.of_pure rfl (fun _ _ => rfl)

theorem logEffects_truncateBindings (s : EvalState) (n : Nat) :
    LogEffects s (s.truncateBindings n) :=
  LogEffects.of_pure rfl (fun _ _ => rfl)

theorem logEffects_setBindings (s : EvalState) (b : List (Option Node)) :
    LogEffects s { s with bindings := b } :=
  LogEffects.of_pure rfl (fun _ _ => rfl)

theorem logEffects_recordFailure (s : EvalState) (p : Int) :
    LogEffects s (s.recordFailure p) := by
  unfold EvalState.recordFailure
  split
  · exact LogEffects.of_pure rfl (fun _ _ => rfl)
  · exact LogEffects.reflL s

theorem logEffects_doNotRecordFailures (s : EvalState) :
    LogEffects s s.doNotRecordFailures :=
  LogEffects.of_pure rfl (fun _ _ => rfl)

theorem logEffects_doRecordFailures (s : EvalState) :
    LogEffects s s.doRecordFailures :=
  LogEffects.of_pure rfl (fun _ _ => rfl)

theorem logEffects_enterLexicalContext (s : EvalState) :
    LogEffects s s.enterLexicalContext :=
  LogEffects.of_pure rfl (fun _ _ => rfl)

theorem logEffects_exitLexicalContext (s : EvalState) :
    LogEffects s s.exitLexicalContext :=
  LogEffects.of_pure rfl (fun _ _ => rfl)

theorem logEffects_setStream (s : EvalState) (is : InputStream)
    (hpi : is.posInfos = s.inputStream.posInfos) :
    LogEffects s { s with inputStream := is } :=
  LogEffects.of_pure rfl (fun p k => by
    simp [EvalState.lookupMemo, EvalState.posInfoAt, hpi])

theorem logEffects_posInfoEnter (s : EvalState) (p : Int) (app : PExpr) :
    LogEffects s (posInfoEnter s p app) :=
  LogEffects.of_pure rfl (fun q k => lookupMemo_posInfoEnter s p app q k)

theorem logEffects_posInfoExit (s : EvalState) (p : Int) :
    LogEffects s (posInfoExit s p) :=
  LogEffects.of_pure rfl (fun q k => lookupMemo_posInfoExit s p q k)

theorem lookupMemo_startLeftRecursion (s : EvalState) (p : Int) (app : PExpr)
    (q : Int) (k : String) :
    (startLeftRecursion s p app).lookupMemo q k = s.lookupMemo q k := by
  simp only [startLeftRecursion, EvalState.lookupMemo, posInfoAt_modifyPosInfoAt]
  split <;> simp_all

theorem lookupMemo_endLeftRecursion (s : EvalState) (p : Int)
    (q : Int) (k : String) :
    (endLeftRecursion s p).lookupMemo q k = s.lookupMemo q k := by
  simp only [endLeftRecursion, EvalState.lookupMemo, posInfoAt_modifyPosInfoAt]
  split <;> simp_all

theorem logEffects_startLeftRecursion (s : EvalState) (p : Int) (app : PExpr) :
    LogEffects s (startLeftRecursion s p app) :=
  LogEffects.of_pure rfl (fun q k => lookupMemo_startLeftRecursion s p app q k)

theorem logEffects_endLeftRecursion (s : EvalState) (p : Int) :
    LogEffects s (endLeftRecursion s p) :=
  LogEffects.of_pure rfl (fun q k => lookupMemo_endLeftRecursion s p q k)

theorem logEffects_logApply (s : EvalState) (e : ApplyLogEntry) :
    LogEffects s (s.logApply e) :=
  ⟨[e], rfl, fun p k hne => absurd rfl hne⟩

theorem logEffectsExcept_writeMemo (s : EvalState) (p : Int) (k : String)
    (rec : MemoRec) : LogEffectsExcept p k s (s.writeMemo p k rec) := by
  refine ⟨[], by
    rw [List.append_nil]
    simp [EvalState.writeMemo, EvalState.modifyPosInfoAt, EvalState.setPosInfoAt], fun q k2 hne => ?_⟩
  rw [lookupMemo_writeMemo] at hne
  by_cases hq : q = p ∧ k2 = k
  · exact Or.inl hq
  · rw [if_neg hq] at hne
    exact absurd rfl hne

theorem logEffects_useMemoizedResult (s : EvalState) (rec : MemoRec) :
    LogEffects s (useMemoizedResult s rec).2 := by
  unfold useMemoizedResult
  cases rec.value
  · exact logEffects_setPos s rec.pos
  · exact (logEffects_setPos s rec.pos).transL (logEffects_pushBinding _ _)

theorem logEffects_around_stream {s t : EvalState} (st : InputStream)
    (hE : Effects (s.pushInputStream st) t)
    (hL : LogEffects (s.pushInputStream st) t) : LogEffects s t.popInputStream := by
  have hstack : t.inputStreamStack = s.inputStream :: s.inputStreamStack := hE.stack_eq
  have hpop : t.popInputStream =
      { t with inputStream := s.inputStream, inputStreamStack := s.inputStreamStack } := by
    unfold EvalState.popInputStream
    rw [hstack]
  obtain ⟨pre, hl, _⟩ := hL
  refine ⟨pre, ?_, fun p k hne => ?_⟩
  · rw [hpop]
    exact hl
  · refine absurd ?_ hne
    rw [hpop]
    simp [EvalState.lookupMemo, EvalState.posInfoAt]

theorem logEffects_foldl_push (cols : List (List (Option Node))) (iv : Interval)
    (s : EvalState) :
    LogEffects s (cols.foldl
      (fun st col => st.pushBinding (some (.node "_iter" col iv))) s) := by
  suffices hgen : ∀ (cs : List (List (Option Node))) (σ : EvalState),
      LogEffects σ (cs.foldl
        (fun st col => st.pushBinding (some (.node "_iter" col iv))) σ) by
    exact hgen cols s
  intro cs
  induction cs with
  | nil => exact fun σ => LogEffects.reflL σ
  | cons c cs ih =>
    intro σ
    exact (logEffects_pushBinding σ _).transL (ih _)

/-- The ghost-log/memo-write invariant holds of every function of the
evaluation core (same induction shape as `effects_all`). -/
theorem logEffects_all : ∀ fuel : Nat,
    (∀ e s r, eval fuel e s = some r → LogEffects s r.2) ∧
    (∀ e s r, evalCore fuel e s = some r → LogEffects s r.2) ∧
    (∀ ts s r, altLoop fuel ts s = some r → LogEffects s r.2) ∧
    (∀ fs s r, seqLoop fuel fs s = some r → LogEffects s r.2) ∧
    (∀ e a mx n cols s r, iterLoop fuel e a mx n cols s = some r → LogEffects s r.2) ∧
    (∀ props c v s r, objPropsLoop fuel props c v s = some r → LogEffects s r.2) ∧
    (∀ s r, skipSpaces fuel s = some r → LogEffects s r) ∧
    (∀ s r, skipSpacesIfInSyntacticContext fuel s = some r → LogEffects s r.2) ∧
    (∀ rn ps id s r, applyEval fuel rn ps id s = some r → LogEffects s r.2) ∧
    (∀ app isTop s r, reallyEval fuel app isTop s = some r →
        LogEffectsExcept s.inputStream.pos (toMemoKey app) s r.2) ∧
    (∀ rn body s r, evalOnce fuel rn body s = some r → LogEffects s r.2) ∧
    (∀ rn k body op seed s r, growSeedResult fuel rn k body op seed s = some r →
        LogEffectsExcept op k s r.1.2) ∧
    (∀ rn k body op s r, growLoop fuel rn k body op s = some r →
        LogEffectsExcept op k s r.1.1) := by
  intro fuel
  induction fuel with
  | zero =>
    refine ⟨?_, ?_, ?_, ?_, ?_, ?_, ?_, ?_, ?_, ?_, ?_, ?_, ?_⟩
    · intro e s r h; simp [eval] at h
    · intro e s r h; simp [evalCore] at h
    · intro ts s r h; simp [altLoop] at h
    · intro fs s r h; simp [seqLoop] at h
    · intro e a mx n cols s r h; simp [iterLoop] at h
    · intro props c v s r h; simp [objPropsLoop] at h
    · intro s r h; simp [skipSpaces] at h
    · intro s r h; simp [skipSpacesIfInSyntacticContext] at h
    · intro rn ps id s r h; simp [applyEval] at h
    · intro app isTop s r h; simp [reallyEval] at h
    · intro rn body s r h; simp [evalOnce] at h
    · intro rn k body op seed s r h; simp [growSeedResult] at h
    · intro rn k body op s r h; simp [growLoop] at h
  | succ fuel ih =>
    obtain ⟨ihEval, ihCore, ihAlt, ihSeq, ihIter, ihObj, ihSkip, ihSkipISC, ihApply,
      ihReally, ihOnce, ihGrowSeed, ihGrowLoop⟩ := ih
    refine ⟨?_, ?_, ?_, ?_, ?_, ?_, ?_, ?_, ?_, ?_, ?_, ?_, ?_⟩
    -- eval: the save/restore wrapper
    · intro e s r h
      obtain ⟨ans, sF⟩ := r
      simp only [eval] at h
      cases hc : evalCore fuel e s with
      | none => rw [hc] at h; simp at h
      | some p =>
        obtain ⟨a1, s1⟩ := p
        rw [hc] at h
        have hcore := ihCore e s (a1, s1) hc
        cases a1 with
        | true =>
          simp at h
          obtain ⟨h1, h2⟩ := h
          subst h2
          exact hcore
        | false =>
          simp at h
          obtain ⟨h1, h2⟩ := h
          subst h2
          exact hcore.transL ((logEffects_setPos _ _).transL (logEffects_truncateBindings _ _))
    -- evalCore: dispatch over the 17 expression variants
    · intro e s r h
      obtain ⟨ans, sF⟩ := r
      cases e with
      | anything =>
        simp only [evalCore] at h
        split at h
        · simp at h
        · rename_i origPos s1 hskipEq
          have hskip : LogEffects s s1 := ihSkipISC _ _ hskipEq
          have hS2 : LogEffects s1 { s1 with inputStream := (s1.inputStream.next).2 } :=
            logEffects_setStream s1 _ (next_snd_posInfos _)
          split at h
          · simp at h
            obtain ⟨h1, h2⟩ := h
            subst h2
            exact hskip.transL (hS2.transL (logEffects_recordFailure _ _))
          · simp at h
            obtain ⟨h1, h2⟩ := h
            subst h2
            exact hskip.transL (hS2.transL (logEffects_pushBinding _ _))
      | endExpr =>
        simp only [evalCore] at h
        split at h
        · simp at h
        · rename_i origPos s1 hskipEq
          have hskip : LogEffects s s1 := ihSkipISC _ _ hskipEq
          split at h
          · simp at h
            obtain ⟨h1, h2⟩ := h
            subst h2
            exact hskip.transL (logEffects_pushBinding _ _)
          · simp at h
            obtain ⟨h1, h2⟩ := h
            subst h2
            exact hskip.transL (logEffects_recordFailure _ _)
      | prim obj =>
        simp only [evalCore] at h
        split at h
        · simp at h
        · rename_i origPos s1 hskipEq
          have hskip : LogEffects s s1 := ihSkipISC _ _ hskipEq
          have hS2 : LogEffects s1 { s1 with inputStream := (s1.inputStream.matchExactly obj).2 } :=
            logEffects_setStream s1 _ (matchExactly_snd_posInfos _ _)
          split at h
          · simp at h
            obtain ⟨h1, h2⟩ := h
            subst h2
            exact hskip.transL (hS2.transL (logEffects_recordFailure _ _))
          · simp at h
            obtain ⟨h1, h2⟩ := h
            subst h2
            exact hskip.transL (hS2.transL (logEffects_pushBinding _ _))
      | stringPrim obj =>
        simp only [evalCore] at h
        split at h
        · simp at h
        · rename_i origPos s1 hskipEq
          have hskip : LogEffects s s1 := ihSkipISC _ _ hskipEq
          have hS2 : LogEffects s1 { s1 with inputStream := (s1.inputStream.matchString obj).2 } :=
            logEffects_setStream s1 _ (matchString_snd_posInfos _ _)
          split at h
          · simp at h
            obtain ⟨h1, h2⟩ := h
            subst h2
            exact hskip.transL (hS2.transL (logEffects_recordFailure _ _))
          · simp at h
            obtain ⟨h1, h2⟩ := h
            subst h2
            exact hskip.transL (hS2.transL (logEffects_pushBinding _ _))
      | range lo hi =>
        simp only [evalCore] at h
        split at h
        · simp at h
        · rename_i origPos s1 hskipEq
          have hskip : LogEffects s s1 := ihSkipISC _ _ hskipEq
          have hS2 : LogEffects s1 { s1 with inputStream := (s1.inputStream.next).2 } :=
            logEffects_setStream s1 _ (next_snd_posInfos _)
          split at h
          · split at h
            · simp at h
              obtain ⟨h1, h2⟩ := h
              subst h2
              exact hskip.transL (hS2.transL (logEffects_pushBinding _ _))
            · simp at h
              obtain ⟨h1, h2⟩ := h
              subst h2
              exact hskip.transL (hS2.transL (logEffects_recordFailure _ _))
          · simp at h
            obtain ⟨h1, h2⟩ := h
            subst h2
            exact hskip.transL (hS2.transL (logEffects_recordFailure _ _))
      | unicodeChar pattern =>
        simp only [evalCore] at h
        split at h
        · simp at h
        · rename_i origPos s1 hskipEq
          have hskip : LogEffects s s1 := ihSkipISC _ _ hskipEq
          have hS2 : LogEffects s1 { s1 with inputStream := (s1.inputStream.next).2 } :=
            logEffects_setStream s1 _ (next_snd_posInfos _)
          split at h
          · simp at h
            obtain ⟨h1, h2⟩ := h
            subst h2
            exact hskip.transL (hS2.transL (logEffects_recordFailure _ _))
          · split at h
            · simp at h
              obtain ⟨h1, h2⟩ := h
              subst h2
              exact hskip.transL (hS2.transL (logEffects_recordFailure _ _))
            · simp at h
              obtain ⟨h1, h2⟩ := h
              subst h2
              exact hskip.transL (hS2.transL (logEffects_pushBinding _ _))
      | param index =>
        simp only [evalCore] at h
        split at h
        · simp at h
        · rename_i caller hca
          split at h
          · simp at h
          · rename_i argExpr hget
            exact ihEval _ _ _ h
      | lex expr =>
        simp only [evalCore] at h
        split at h
        · simp at h
        · rename_i a1 s1 he
          simp at h
          obtain ⟨h1, h2⟩ := h
          subst h2
          exact ((logEffects_enterLexicalContext s).transL (ihEval _ _ _ he)).transL
            (logEffects_exitLexicalContext _)
      | alt terms =>
        simp only [evalCore] at h
        exact ihAlt _ _ _ h
      | seq factors =>
        simp only [evalCore] at h
        exact ihSeq _ _ _ h
      | iter expr mn mx =>
        simp only [evalCore] at h
        split at h
        · simp at h
        · rename_i numMatches cols1 s1 hloop
          have hIter := ihIter _ _ _ _ _ _ _ hloop
          split at h
          · simp at h
            obtain ⟨h1, h2⟩ := h
            subst h2
            exact hIter
          · split at h
            · simp at h
            · rename_i iv hiv
              simp at h
              obtain ⟨h1, h2⟩ := h
              subst h2
              exact hIter.transL (logEffects_foldl_push _ _ _)
      | not expr =>
        simp only [evalCore] at h
        split at h
        · simp at h
        · rename_i a1 s1 he
          have hinner := (logEffects_doNotRecordFailures s).transL (ihEval _ _ _ he)
          cases a1 with
          | true =>
            simp at h
            obtain ⟨h1, h2⟩ := h
            subst h2
            exact ((hinner.transL (logEffects_doRecordFailures _)).transL
              (logEffects_recordFailure _ _)).transL (logEffects_truncateBindings _ _)
          | false =>
            simp at h
            obtain ⟨h1, h2⟩ := h
            subst h2
            exact (hinner.transL (logEffects_doRecordFailures _)).transL (logEffects_setPos _ _)
      | lookahead expr =>
        simp only [evalCore] at h
        split at h
        · simp at h
        · rename_i a1 s1 he
          have hinner := ihEval _ _ _ he
          cases a1 with
          | true =>
            simp at h
            obtain ⟨h1, h2⟩ := h
            subst h2
            exact hinner.transL (logEffects_setPos _ _)
          | false =>
            simp at h
            obtain ⟨h1, h2⟩ := h
            subst h2
            exact hinner
      | arr expr =>
        simp only [evalCore] at h
        have hS1 : LogEffects s { s with inputStream := (s.inputStream.next).2 } :=
          logEffects_setStream s _ (next_snd_posInfos _)
        split at h
        · rename_i elems harr
          split at h
          · simp at h
          · rename_i a0 s2 he
            simp at h
            obtain ⟨h1, h2⟩ := h
            subst h2
            exact hS1.transL (logEffects_around_stream _ (eval_effects he) (ihEval _ _ _ he))
        · simp at h
          obtain ⟨h1, h2⟩ := h
          subst h2
          exact hS1
      | str expr =>
        simp only [evalCore] at h
        have hS1 : LogEffects s { s with inputStream := (s.inputStream.next).2 } :=
          logEffects_setStream s _ (next_snd_posInfos _)
        split at h
        · rename_i sv hsv
          split at h
          · simp at h
          · rename_i a0 s2 he
            have hPush := ihEval _ _ _ he
            have hPushE := eval_effects he
            split at h
            · split at h
              · simp at h
              · rename_i ansEnd s3 hee
                have hEnd := ihEval _ _ _ hee
                have hEndE := eval_effects hee
                split at h
                · simp at h
                  obtain ⟨h1, h2⟩ := h
                  subst h2
                  exact hS1.transL (logEffects_around_stream _
                    (Effects.trans (Effects.trans hPushE hEndE) (effects_setBindings _ _))
                    ((hPush.transL hEnd).transL (logEffects_setBindings _ _)))
                · simp at h
                  obtain ⟨h1, h2⟩ := h
                  subst h2
                  exact hS1.transL (logEffects_around_stream _
                    (Effects.trans hPushE hEndE) (hPush.transL hEnd))
            · simp at h
              obtain ⟨h1, h2⟩ := h
              subst h2
              exact hS1.transL (logEffects_around_stream _ hPushE hPush)
        · simp at h
          obtain ⟨h1, h2⟩ := h
          subst h2
          exact hS1
      | obj properties isLenient =>
        simp only [evalCore] at h
        have hS1 : LogEffects s { s with inputStream := (s.inputStream.next).2 } :=
          logEffects_setStream s _ (next_snd_posInfos _)
        split at h
        · rename_i v hv
          split at h
          · split at h
            · simp at h
            · rename_i matchedAll cnt s2 hloop
              have hObjL := ihObj _ _ _ _ _ hloop
              split at h
              · simp at h
                obtain ⟨h1, h2⟩ := h
                subst h2
                exact hS1.transL hObjL
              · split at h
                · simp at h
                  obtain ⟨h1, h2⟩ := h
                  subst h2
                  exact hS1.transL (hObjL.transL (logEffects_pushBinding _ _))
                · simp at h
                  obtain ⟨h1, h2⟩ := h
                  subst h2
                  exact hS1.transL hObjL
          · simp at h
            obtain ⟨h1, h2⟩ := h
            subst h2
            exact hS1
        · simp at h
          obtain ⟨h1, h2⟩ := h
          subst h2
          exact hS1
      | apply ruleName ps id =>
        simp only [evalCore] at h
        exact ihApply _ _ _ _ _ h
    -- altLoop
    · intro ts s r h
      obtain ⟨ans, sF⟩ := r
      cases ts with
      | nil =>
        simp only [altLoop] at h
        simp at h
        obtain ⟨h1, h2⟩ := h
        subst h2
        exact LogEffects.reflL s
      | cons t ts =>
        simp only [altLoop] at h
        cases he : eval fuel t s with
        | none => rw [he] at h; simp at h
        | some p =>
          obtain ⟨a1, s1⟩ := p
          rw [he] at h
          have h1 := ihEval _ _ _ he
          cases a1 with
          | true =>
            simp at h
            obtain ⟨hh1, hh2⟩ := h
            subst hh2
            exact h1
          | false =>
            exact h1.transL (ihAlt _ _ _ h)
    -- seqLoop
    · intro fs s r h
      obtain ⟨ans, sF⟩ := r
      cases fs with
      | nil =>
        simp only [seqLoop] at h
        simp at h
        obtain ⟨h1, h2⟩ := h
        subst h2
        exact LogEffects.reflL s
      | cons f fs =>
        simp only [seqLoop] at h
        cases he : eval fuel f s with
        | none => rw [he] at h; simp at h
        | some p =>
          obtain ⟨a1, s1⟩ := p
          rw [he] at h
          have h1 := ihEval _ _ _ he
          cases a1 with
          | true =>
            exact h1.transL (ihSeq _ _ _ h)
          | false =>
            simp at h
            obtain ⟨hh1, hh2⟩ := h
            subst hh2
            exact h1
    -- iterLoop
    · intro e a mx n cols s r h
      obtain ⟨res, sF⟩ := r
      simp only [iterLoop] at h
      split at h
      · cases he : eval fuel e s with
        | none => rw [he] at h; simp at h
        | some p =>
          obtain ⟨a1, s1⟩ := p
          rw [he] at h
          have h1 := ihEval _ _ _ he
          cases a1 with
          | true =>
            exact (h1.transL (logEffects_setBindings _ _)).transL (ihIter _ _ _ _ _ _ _ h)
          | false =>
            simp at h
            obtain ⟨hh1, hh2⟩ := h
            subst hh2
            exact h1
      · simp at h
        obtain ⟨h1, h2⟩ := h
        subst h2
        exact LogEffects.reflL s
    -- objPropsLoop
    · intro props c v s r h
      obtain ⟨res, sF⟩ := r
      cases props with
      | nil =>
        simp only [objPropsLoop] at h
        simp at h
        obtain ⟨h1, h2⟩ := h
        subst h2
        exact LogEffects.reflL s
      | cons pr rest =>
        obtain ⟨name, pattern⟩ := pr
        simp only [objPropsLoop] at h
        split at h
        · split at h
          · simp at h
          · rename_i aP s1 heval
            have hstream := logEffects_around_stream _ (eval_effects heval) (ihEval _ _ _ heval)
            split at h
            · exact hstream.transL (ihObj _ _ _ _ _ h)
            · simp at h
              obtain ⟨h1, h2⟩ := h
              subst h2
              exact hstream
        · simp at h
          obtain ⟨h1, h2⟩ := h
          subst h2
          exact LogEffects.reflL s
    -- skipSpaces
    · intro s r h
      simp only [skipSpaces] at h
      cases he : eval fuel s.grammar.applySpaces s with
      | none => rw [he] at h; simp at h
      | some p =>
        obtain ⟨a1, s1⟩ := p
        rw [he] at h
        have h1 := ihEval _ _ _ he
        cases a1 with
        | true =>
          simp at h
          subst h
          exact h1.transL (logEffects_setBindings _ _)
        | false =>
          simp at h
          subst h
          exact h1
    -- skipSpacesIfInSyntacticContext
    · intro s r h
      obtain ⟨pos0, s1⟩ := r
      simp only [skipSpacesIfInSyntacticContext] at h
      split at h
      · cases hsk : skipSpaces fuel s with
        | none => rw [hsk] at h; simp at h
        | some s2 =>
          rw [hsk] at h
          simp at h
          obtain ⟨h1, h2⟩ := h
          subst h2
          exact ihSkip _ _ hsk
      · simp at h
        obtain ⟨h1, h2⟩ := h
        subst h2
        exact LogEffects.reflL s
    -- applyEval
    · intro rn ps id s r h
      obtain ⟨ans, sF⟩ := r
      simp only [applyEval] at h
      split at h
      · simp at h
      · rename_i s1 hstep
        have hs1 : LogEffects s s1 := by
          split at hstep
          · exact ihSkip _ _ hstep
          · have he := Option.some.inj hstep
            subst he
            exact LogEffects.reflL s
        split at h
        · rename_i memoRec hm
          simp at h
          obtain ⟨h1, h2⟩ := h
          subst h2
          exact hs1.transL ((logEffects_useMemoizedResult _ _).transL (logEffects_logApply _ _))
        · rename_i hm
          split at h
          · simp at h
            obtain ⟨h1, h2⟩ := h
            subst h2
            exact hs1.transL
              (((logEffectsExcept_writeMemo _ _ _ _).transLog
                (logEffects_startLeftRecursion _ _ _)).dischargeLog _ rfl rfl)
          · split at h
            · simp at h
            · rename_i a2 s2 hre
              have hRE := ihReally _ _ _ _ hre
              simp at h
              obtain ⟨h1, h2⟩ := h
              subst h2
              exact hs1.transL (hRE.dischargeLog _ rfl rfl)
    -- reallyEval
    · intro app isTop s r h
      obtain ⟨ans, sF⟩ := r
      cases app
      case apply rn ps id =>
        simp only [reallyEval] at h
        split at h
        · simp at h
        · rename_i rule hrule
          split at h
          · simp at h
          · rename_i value0 s3 honce
            have honceL := ihOnce _ _ _ _ honce
            have hToS2 : LogEffects s (if rule.description.isSome = true
                then (posInfoEnter s s.inputStream.pos (PExpr.apply rn ps id)).doNotRecordFailures
                else posInfoEnter s s.inputStream.pos (PExpr.apply rn ps id)) := by
              split
              · exact (logEffects_posInfoEnter _ _ _).transL (logEffects_doNotRecordFailures _)
              · exact logEffects_posInfoEnter _ _ _
            split at h
            · simp at h
            · rename_i value s4 hmid
              have hexcmid : LogEffectsExcept s.inputStream.pos
                  (toMemoKey (PExpr.apply rn ps id)) s3 s4 := by
                split at hmid
                · rename_i frame hlr
                  split at hmid
                  · split at hmid
                    · simp at hmid
                    · rename_i value1 s4a cm it hgrow
                      have hG := ihGrowSeed _ _ _ _ _ _ _ hgrow
                      simp at hmid
                      obtain ⟨hm1, hm2⟩ := hmid
                      subst hm2
                      exact hG.transLog (logEffects_endLeftRecursion _ _)
                  · split at hmid
                    · simp at hmid
                      obtain ⟨hm1, hm2⟩ := hmid
                      subst hm2
                      exact (LogEffects.reflL s3).toExceptL _ _
                    · simp at hmid
                      obtain ⟨hm1, hm2⟩ := hmid
                      subst hm2
                      exact logEffectsExcept_writeMemo _ _ _ _
                · rename_i hlr
                  simp at hmid
                  obtain ⟨hm1, hm2⟩ := hmid
                  subst hm2
                  exact logEffectsExcept_writeMemo _ _ _ _
              split at h
              · -- value = some v: push the rule node, then the top-level End check
                rename_i v hval
                have hPost : LogEffects s4
                    (if rule.description.isSome = true then s4.doRecordFailures else s4) := by
                  split
                  · exact logEffects_doRecordFailures _
                  · exact LogEffects.reflL s4
                have hfront : LogEffectsExcept s.inputStream.pos
                    (toMemoKey (PExpr.apply rn ps id)) s
                    (posInfoExit
                      (if rule.description.isSome = true then s4.doRecordFailures else s4)
                      s.inputStream.pos) :=
                  ((hToS2.transL honceL).transExceptL hexcmid).transLog
                    (hPost.transL (logEffects_posInfoExit _ _))
                cases isTop with
                | false =>
                  simp at h
                  obtain ⟨h1, h2⟩ := h
                  subst h2
                  exact hfront.transLog (logEffects_pushBinding _ _)
                | true =>
                  rw [if_pos rfl] at h
                  split at h
                  · simp at h
                  · rename_i s8 hstep8
                    split at hstep8
                    · -- syntactic start rule: trailing whitespace skipped
                      have h78 := ihSkip _ _ hstep8
                      split at h
                      · simp at h
                      · rename_i ansEnd s9 hee
                        have h89 := ihEval _ _ _ hee
                        split at h
                        · simp at h
                          obtain ⟨h1, h2⟩ := h
                          subst h2
                          exact hfront.transLog ((logEffects_pushBinding _ _).transL
                            (h78.transL (h89.transL (logEffects_setBindings _ _))))
                        · simp at h
                          obtain ⟨h1, h2⟩ := h
                          subst h2
                          exact hfront.transLog ((logEffects_pushBinding _ _).transL
                            (h78.transL h89))
                    · -- lexical start rule: no whitespace skip
                      have he8 := Option.some.inj hstep8
                      subst he8
                      split at h
                      · simp at h
                      · rename_i ansEnd s9 hee
                        have h89 := ihEval _ _ _ hee
                        split at h
                        · simp at h
                          obtain ⟨h1, h2⟩ := h
                          subst h2
                          exact hfront.transLog ((logEffects_pushBinding _ _).transL
                            (h89.transL (logEffects_setBindings _ _)))
                        · simp at h
                          obtain ⟨h1, h2⟩ := h
                          subst h2
                          exact hfront.transLog ((logEffects_pushBinding _ _).transL h89)
              · -- value = none: the application failed
                rename_i hval
                simp at h
                obtain ⟨h1, h2⟩ := h
                subst h2
                have hPost : LogEffects s4
                    (if rule.description.isSome = true then
                      s4.doRecordFailures.recordFailure s.inputStream.pos
                    else s4) := by
                  split
                  · exact (logEffects_doRecordFailures _).transL (logEffects_recordFailure _ _)
                  · exact LogEffects.reflL s4
                exact ((hToS2.transL honceL).transExceptL hexcmid).transLog
                  (hPost.transL (logEffects_posInfoExit _ _))
      all_goals simp [reallyEval] at h
    -- evalOnce
    · intro rn body s r h
      obtain ⟨value, sF⟩ := r
      simp only [evalOnce] at h
      cases he : eval fuel body s with
      | none => rw [he] at h; simp at h
      | some p =>
        obtain ⟨a1, s1⟩ := p
        rw [he] at h
        have h1 := ihEval _ _ _ he
        cases a1 with
        | true =>
          simp at h
          obtain ⟨hh1, hh2⟩ := h
          subst hh2
          exact h1.transL (logEffects_setBindings _ _)
        | false =>
          simp at h
          obtain ⟨hh1, hh2⟩ := h
          subst hh2
          exact h1
    -- growSeedResult
    · intro rn k body op seed s r h
      obtain ⟨⟨value, sG⟩, commits, iters⟩ := r
      cases seed with
      | none =>
        simp only [growSeedResult] at h
        have h2 : s = sG := congrArg (fun x => x.1.2) (Option.some.inj h)
        subst h2
        exact (LogEffects.reflL s).toExceptL _ _
      | some seedNode =>
        simp only [growSeedResult] at h
        split at h
        · simp at h
        · rename_i s1 commits1 iters1 hloop
          split at h
          · simp at h
          · rename_i lrMemoRec hrec
            have hL := ihGrowLoop _ _ _ _ _ _ hloop
            simp at h
            obtain ⟨⟨h1, h2⟩, h3, h4⟩ := h
            subst h2
            exact hL.transLog (logEffects_setPos _ _)
    -- growLoop
    · intro rn k body op s r h
      obtain ⟨⟨sG, commits⟩, iters⟩ := r
      simp only [growLoop] at h
      split at h
      · simp at h
      · rename_i newValue s1 heval
        have h1 : LogEffects s s1 := (logEffects_setPos s op).transL (ihOnce _ _ _ _ heval)
        split at h
        · simp at h
        · rename_i lrMemoRec hrec
          split at h
          · simp at h
            obtain ⟨⟨h2, h3⟩, h4⟩ := h
            subst h2
            exact h1.toExceptL _ _
          · split at h
            · simp at h
            · rename_i s2 commits1 iters1 hloop
              have hL := ihGrowLoop _ _ _ _ _ _ hloop
              simp at h
              obtain ⟨⟨h2, h3⟩, h4⟩ := h
              subst h2
              exact (h1.transExceptL (logEffectsExcept_writeMemo _ _ _ _)).transSame hL

theorem applyEval_logEffects {fuel : Nat} {rn : String} {ps : List PExpr} {id : Nat}
    {s : EvalState} {r : Bool × EvalState} (h : applyEval fuel rn ps id s = some r) :
    LogEffects s r.2 :=
  (logEffects_all fuel).2.2.2.2.2.2.2.2.1 rn ps id s r h

theorem evalOnce_logEffects {fuel : Nat} {rn : String} {body : PExpr} {s : EvalState}
    {r : Option Node × EvalState} (h : evalOnce fuel rn body s = some r) :
    LogEffects s r.2 :=
  (logEffects_all fuel).2.2.2.2.2.2.2.2.2.2.1 rn body s r h

theorem skipSpaces_logEffects {fuel : Nat} {s r : EvalState}
    (h : skipSpaces fuel s = some r) : LogEffects s r :=
  (logEffects_all fuel).2.2.2.2.2.2.1 s r h

/-- How many completed applications of the pair (key `k`, position `p`) the
ghost log records. -/
def pairCount (log : List ApplyLogEntry) (k : String) (p : Int) : Nat :=
  (log.filter (fun e => e.memoKey == k && e.pos == p)).length

theorem pairCount_append (l1 l2 : List ApplyLogEntry) (k : String) (p : Int) :
    pairCount (l1 ++ l2) k p = pairCount l1 k p + pairCount l2 k p := by
  simp [pairCount, List.filter_append]

theorem pairCount_pos_of_mem {l : List ApplyLogEntry} {e : ApplyLogEntry}
    {k : String} {p : Int}
    (he : e ∈ l) (hk : e.memoKey = k) (hp : e.pos = p) : 1 ≤ pairCount l k p := by
  have hmem : e ∈ l.filter (fun e => e.memoKey == k && e.pos == p) :=
    List.mem_filter.mpr ⟨he, by simp [hk, hp]⟩
  have hlen := List.length_pos.mpr (List.ne_nil_of_mem hmem)
  simpa [pairCount] using hlen

theorem writeMemo_pos (s : EvalState) (p : Int) (k : String) (rec : MemoRec) :
    (s.writeMemo p k rec).inputStream.pos = s.inputStream.pos := rfl

theorem doRecordFailures_pos (s : EvalState) :
    s.doRecordFailures.inputStream.pos = s.inputStream.pos := rfl

theorem posInfoExit_pos (s : EvalState) (p : Int) :
    (posInfoExit s p).inputStream.pos = s.inputStream.pos := rfl

theorem pushBinding_pos (s : EvalState) (n : Option Node) :
    (s.pushBinding n).inputStream.pos = s.inputStream.pos := rfl

theorem logApply_pos (s : EvalState) (e : ApplyLogEntry) :
    (s.logApply e).inputStream.pos = s.inputStream.pos := rfl

theorem logApply_bindings (s : EvalState) (e : ApplyLogEntry) :
    (s.logApply e).bindings = s.bindings := rfl

theorem pushBinding_bindings (s : EvalState) (n : Option Node) :
    (s.pushBinding n).bindings = s.bindings ++ [n] := rfl

theorem pairCount_entry (k : String) (p : Int) (a : Bool) (ep : Int) :
    pairCount [{ memoKey := k, pos := p, ans := a, endPos := ep }] k p = 1 := by
  simp [pairCount]

/-- The state in which `Apply._eval` consults the memo table: the first step
of `applyEval` (parameter substitution and the optional syntactic whitespace
pre-skip), verbatim.  The memo pair an application visits is (this state's
input position, the substituted application's memo key). -/
def consultState (fuel : Nat) (rn : String) (id : Nat) (s : EvalState) :
    Option EvalState :=
  let caller := s.currentApplication
  let actuals := match caller with
    | some c => EvalState.paramsOf c
    | none => []
  let app := substituteParams actuals (.apply rn [] id)
  let skipCond :=
    !(applyIdentical app s.grammar.applySpaces)
      && (s.inSyntacticContext || app.isSyntactic)
  if skipCond then skipSpaces fuel s else some s

theorem toMemoKey_apply_nil (rn : String) (id : Nat) :
    toMemoKey (.apply rn [] id) = rn := by
  simp [toMemoKey]

/-- Replay: an Apply of an unparameterized rule that finds a memo record at
its consult position returns the record's truthiness, moves the cursor to the
record's stored position, and on success pushes exactly the recorded node. -/
theorem applyEval_replay (fuel : Nat) (rn : String) (id : Nat) (s c : EvalState)
    (rec : MemoRec) (r : Bool × EvalState)
    (h : applyEval (fuel + 1) rn [] id s = some r)
    (hc : consultState fuel rn id s = some c)
    (hm : c.lookupMemo c.inputStream.pos rn = some rec) :
    r.1 = rec.value.isSome ∧ r.2.inputStream.pos = rec.pos ∧
      (∀ v, rec.value = some v → r.2.bindings.getLast? = some (some v)) := by
  simp only [applyEval] at h
  simp only [consultState] at hc
  rw [hc] at h
  simp only [] at h
  have hm2 : c.getCurrentPosInfo.memo.lookup (toMemoKey
      (substituteParams (match s.currentApplication with
        | some c2 => EvalState.paramsOf c2
        | none => []) (PExpr.apply rn [] id))) = some rec := by
    have hsub : substituteParams (match s.currentApplication with
        | some c2 => EvalState.paramsOf c2
        | none => []) (PExpr.apply rn [] id) = PExpr.apply rn [] id := by
      simp [substituteParams]
    rw [hsub, toMemoKey_apply_nil]
    exact hm
  rw [hm2] at h
  simp only [] at h
  cases hrv : rec.value with
  | none =>
    simp only [useMemoizedResult, hrv] at h
    injection h with h
    subst h
    exact ⟨rfl, rfl, fun v hv => by simp at hv⟩
  | some v =>
    simp only [useMemoizedResult, hrv] at h
    injection h with h
    subst h
    refine ⟨rfl, rfl, fun v2 hv => ?_⟩
    injection hv with hv
    subst hv
    show ((c.setPos rec.pos).bindings ++ [some v]).getLast? = some (some v)
    exact List.getLast?_concat _

theorem lookupMemo_logApply (s : EvalState) (e : ApplyLogEntry) (p : Int) (k : String) :
    (s.logApply e).lookupMemo p k = s.lookupMemo p k := rfl

theorem lookupMemo_pushBinding (s : EvalState) (n : Option Node) (p : Int) (k : String) :
    (s.pushBinding n).lookupMemo p k = s.lookupMemo p k := rfl

theorem lookupMemo_doRecordFailures (s : EvalState) (p : Int) (k : String) :
    s.doRecordFailures.lookupMemo p k = s.lookupMemo p k := rfl

theorem lookupMemo_recordFailure (s : EvalState) (q : Int) (p : Int) (k : String) :
    (s.recordFailure q).lookupMemo p k = s.lookupMemo p k := by
  unfold EvalState.recordFailure
  split <;> rfl

theorem applyLog_logApply (s : EvalState) (e : ApplyLogEntry) :
    (s.logApply e).applyLog = s.applyLog ++ [e] := rfl

theorem applyLog_pushBinding (s : EvalState) (n : Option Node) :
    (s.pushBinding n).applyLog = s.applyLog := rfl

theorem applyLog_posInfoExit (s : EvalState) (p : Int) :
    (posInfoExit s p).applyLog = s.applyLog := rfl

theorem applyLog_doRecordFailures (s : EvalState) :
    s.doRecordFailures.applyLog = s.applyLog := rfl

theorem applyLog_recordFailure (s : EvalState) (q : Int) :
    (s.recordFailure q).applyLog = s.applyLog := by
  unfold EvalState.recordFailure
  split <;> rfl

theorem applyLog_writeMemo (s : EvalState) (p : Int) (k : String) (rec : MemoRec) :
    (s.writeMemo p k rec).applyLog = s.applyLog := rfl

theorem recordFailure_pos (s : EvalState) (q : Int) :
    (s.recordFailure q).inputStream.pos = s.inputStream.pos := by
  unfold EvalState.recordFailure
  split <;> rfl

theorem recordFailure_bindings (s : EvalState) (q : Int) :
    (s.recordFailure q).bindings = s.bindings := by
  unfold EvalState.recordFailure
  split <;> rfl

/-- Compute-then-memoize: an Apply of an unparameterized rule by a fresh
application object (id 0, never identical to a grammar node) with a calling
application, whose consult position has no record yet, and which applies its
own pair exactly once (`hlog` — i.e. the rule does not left-recurse on this
pair; the seed placeholder is further excluded by `hseed`), agrees with the
record it leaves behind: its answer is the record's truthiness, its final
position the record's position, and on success the node it bound is the
recorded node. -/
theorem applyEval_compute_memoizes (fuel : Nat) (rn : String) (s c : EvalState)
    (ca : PExpr) (rest : List PExpr) (rec : MemoRec) (r : Bool × EvalState)
    (h : applyEval (fuel + 1) rn [] 0 s = some r)
    (hc : consultState fuel rn 0 s = some c)
    (hcaller : s.applicationStack = ca :: rest)
    (hmiss : c.lookupMemo c.inputStream.pos rn = none)
    (hrec : r.2.lookupMemo c.inputStream.pos rn = some rec)
    (hseed : 0 ≤ rec.pos)
    (hlog : pairCount r.2.applyLog rn c.inputStream.pos =
      pairCount s.applyLog rn c.inputStream.pos + 1) :
    r.1 = rec.value.isSome ∧ r.2.inputStream.pos = rec.pos ∧
      (∀ v, rec.value = some v → r.2.bindings.getLast? = some (some v)) := by
  have hcLog : LogEffects s c := by
    simp only [consultState] at hc
    split at hc
    · exact skipSpaces_logEffects hc
    · have hsc := Option.some.inj hc
      subst hsc
      exact LogEffects.reflL s
  simp only [applyEval] at h
  simp only [consultState] at hc
  rw [hc] at h
  simp only [] at h
  have hsub : substituteParams (match s.currentApplication with
      | some c2 => EvalState.paramsOf c2
      | none => []) (PExpr.apply rn [] 0) = PExpr.apply rn [] 0 := by
    simp [substituteParams]
  rw [hsub, toMemoKey_apply_nil] at h
  have hmiss2 : c.getCurrentPosInfo.memo.lookup rn = none := hmiss
  rw [hmiss2] at h
  simp only [] at h
  split at h
  · -- left-recursion detected: the seed placeholder is written; excluded by hseed
    rename_i hact
    injection h with h
    subst h
    rw [lookupMemo_logApply, lookupMemo_startLeftRecursion, lookupMemo_writeMemo] at hrec
    rw [if_pos ⟨rfl, rfl⟩] at hrec
    injection hrec with hrec
    rw [← hrec] at hseed
    exact absurd hseed (by decide)
  · -- not active: the application computes via reallyEval
    rename_i hact
    have hcall : s.currentApplication = some ca := by
      simp [EvalState.currentApplication, hcaller]
    rw [hcall] at h
    simp only [Option.isNone_some] at h
    split at h
    · simp at h
    · rename_i a2 s2 hre
      injection h with h
      subst h
      cases fuel with
      | zero => simp [reallyEval] at hre
      | succ fuel2 =>
        simp only [reallyEval] at hre
        split at hre
        · simp at hre
        · rename_i rule hrule
          split at hre
          · simp at hre
          · rename_i value0 s3 honce
            simp only [toMemoKey_apply_nil, applyIdentical_id_zero, Bool.false_eq_true,
              if_false] at hre
            have hmissB : (if rule.description.isSome = true then
                (posInfoEnter c c.inputStream.pos (PExpr.apply rn [] 0)).doNotRecordFailures
                else posInfoEnter c c.inputStream.pos (PExpr.apply rn [] 0)).lookupMemo
                  c.inputStream.pos rn = none := by
              split
              · show (posInfoEnter c c.inputStream.pos
                  (PExpr.apply rn [] 0)).lookupMemo c.inputStream.pos rn = none
                rw [lookupMemo_posInfoEnter]
                exact hmiss
              · rw [lookupMemo_posInfoEnter]
                exact hmiss
            split at hre
            · rename_i hfr
              simp at hre
            · rename_i value s4 hfr
              split at hfr
              · rename_i frame hlr
                split at hfr
                · -- involved: no memoization; excluded through hlog
                  rename_i hinv
                  injection hfr with hfr
                  obtain ⟨hval, hs4⟩ := Prod.mk.injEq .. ▸ hfr
                  subst hval
                  subst hs4
                  split at hre
                  · rename_i v
                    simp only [Option.isNone_some, Bool.false_eq_true, if_false] at hre
                    injection hre with hre
                    obtain ⟨ha2, hs2⟩ := Prod.mk.injEq .. ▸ hre
                    subst ha2
                    subst hs2
                    simp only [lookupMemo_logApply, lookupMemo_pushBinding,
                      lookupMemo_posInfoExit] at hrec
                    have hs3rec : s3.lookupMemo c.inputStream.pos rn = some rec := by
                      split at hrec
                      · exact hrec
                      · exact hrec
                    obtain ⟨preB, hlogB, hmemB⟩ := evalOnce_logEffects honce
                    have hchanged : s3.lookupMemo c.inputStream.pos rn ≠
                        (if rule.description.isSome = true then
                          (posInfoEnter c c.inputStream.pos
                            (PExpr.apply rn [] 0)).doNotRecordFailures
                        else posInfoEnter c c.inputStream.pos
                          (PExpr.apply rn [] 0)).lookupMemo c.inputStream.pos rn := by
                      rw [hs3rec, hmissB]
                      simp
                    obtain ⟨e2, he2, hek2, hep2⟩ := hmemB _ _ hchanged
                    obtain ⟨preS, hlogS, hmemS⟩ := hcLog
                    simp only [applyLog_logApply, applyLog_pushBinding,
                      applyLog_posInfoExit] at hlog
                    have hdlog : (if rule.description.isSome = true then
                        s3.doRecordFailures else s3).applyLog = s3.applyLog := by
                      split
                      · rfl
                      · rfl
                    have hs2log : (if rule.description.isSome = true then
                        (posInfoEnter c c.inputStream.pos
                          (PExpr.apply rn [] 0)).doNotRecordFailures
                      else posInfoEnter c c.inputStream.pos
                        (PExpr.apply rn [] 0)).applyLog = c.applyLog := by
                      split
                      · rfl
                      · rfl
                    rw [hdlog, hlogB, hs2log, hlogS, pairCount_append, pairCount_append,
                      pairCount_append, pairCount_entry] at hlog
                    have hB : 1 ≤ pairCount preB rn c.inputStream.pos :=
                      pairCount_pos_of_mem he2 hek2 hep2
                    exact absurd hlog (by omega)
                  · simp only [Option.isNone_none, if_true] at hre
                    injection hre with hre
                    obtain ⟨ha2, hs2⟩ := Prod.mk.injEq .. ▸ hre
                    subst ha2
                    subst hs2
                    simp only [lookupMemo_logApply, lookupMemo_posInfoExit] at hrec
                    have hs3rec : s3.lookupMemo c.inputStream.pos rn = some rec := by
                      split at hrec
                      · rw [lookupMemo_recordFailure, lookupMemo_doRecordFailures] at hrec
                        exact hrec
                      · exact hrec
                    obtain ⟨preB, hlogB, hmemB⟩ := evalOnce_logEffects honce
                    have hchanged : s3.lookupMemo c.inputStream.pos rn ≠
                        (if rule.description.isSome = true then
                          (posInfoEnter c c.inputStream.pos
                            (PExpr.apply rn [] 0)).doNotRecordFailures
                        else posInfoEnter c c.inputStream.pos
                          (PExpr.apply rn [] 0)).lookupMemo c.inputStream.pos rn := by
                      rw [hs3rec, hmissB]
                      simp
                    obtain ⟨e2, he2, hek2, hep2⟩ := hmemB _ _ hchanged
                    obtain ⟨preS, hlogS, hmemS⟩ := hcLog
                    simp only [applyLog_logApply, applyLog_posInfoExit] at hlog
                    have hdlog : (if rule.description.isSome = true then
                        s3.doRecordFailures.recordFailure c.inputStream.pos
                        else s3).applyLog = s3.applyLog := by
                      split
                      · rw [applyLog_recordFailure]
                        rfl
                      · rfl
                    have hs2log : (if rule.description.isSome = true then
                        (posInfoEnter c c.inputStream.pos
                          (PExpr.apply rn [] 0)).doNotRecordFailures
                      else posInfoEnter c c.inputStream.pos
                        (PExpr.apply rn [] 0)).applyLog = c.applyLog := by
                      split
                      · rfl
                      · rfl
                    rw [hdlog, hlogB, hs2log, hlogS, pairCount_append, pairCount_append,
                      pairCount_append, pairCount_entry] at hlog
                    have hB : 1 ≤ pairCount preB rn c.inputStream.pos :=
                      pairCount_pos_of_mem he2 hek2 hep2
                    exact absurd hlog (by omega)
                · -- not involved: the result is memoized
                  rename_i hinv
                  injection hfr with hfr
                  obtain ⟨hval, hs4⟩ := Prod.mk.injEq .. ▸ hfr
                  subst hval
                  subst hs4
                  split at hre
                  · rename_i v
                    simp only [Option.isNone_some, Bool.false_eq_true, if_false] at hre
                    injection hre with hre
                    obtain ⟨ha2, hs2⟩ := Prod.mk.injEq .. ▸ hre
                    subst ha2
                    subst hs2
                    simp only [lookupMemo_logApply, lookupMemo_pushBinding,
                      lookupMemo_posInfoExit] at hrec
                    have hWrec : (s3.writeMemo c.inputStream.pos rn
                        { pos := s3.inputStream.pos, value := some v }).lookupMemo
                          c.inputStream.pos rn = some rec := by
                      split at hrec
                      · exact hrec
                      · exact hrec
                    rw [lookupMemo_writeMemo, if_pos ⟨rfl, rfl⟩] at hWrec
                    injection hWrec with hWrec
                    subst hWrec
                    refine ⟨rfl, ?_, ?_⟩
                    · simp only [logApply_pos, pushBinding_pos, posInfoExit_pos]
                      split
                      · rfl
                      · rfl
                    · intro v2 hv
                      injection hv with hv
                      subst hv
                      simp only [logApply_bindings, pushBinding_bindings]
                      exact List.getLast?_concat _
                  · simp only [Option.isNone_none, if_true] at hre
                    injection hre with hre
                    obtain ⟨ha2, hs2⟩ := Prod.mk.injEq .. ▸ hre
                    subst ha2
                    subst hs2
                    simp only [lookupMemo_logApply, lookupMemo_posInfoExit] at hrec
                    have hWrec : (s3.writeMemo c.inputStream.pos rn
                        { pos := s3.inputStream.pos, value := none }).lookupMemo
                          c.inputStream.pos rn = some rec := by
                      split at hrec
                      · rw [lookupMemo_recordFailure, lookupMemo_doRecordFailures] at hrec
                        exact hrec
                      · exact hrec
                    rw [lookupMemo_writeMemo, if_pos ⟨rfl, rfl⟩] at hWrec
                    injection hWrec with hWrec
                    subst hWrec
                    refine ⟨rfl, ?_, ?_⟩
                    · simp only [logApply_pos, posInfoExit_pos]
                      split
                      · rw [recordFailure_pos, doRecordFailures_pos, writeMemo_pos]
                      · rfl
                    · intro v2 hv
                      exact absurd hv (by simp)
              · -- no left-recursion frame: the result is memoized
                rename_i hlr
                injection hfr with hfr
                obtain ⟨hval, hs4⟩ := Prod.mk.injEq .. ▸ hfr
                subst hval
                subst hs4
                split at hre
                · rename_i v
                  simp only [Option.isNone_some, Bool.false_eq_true, if_false] at hre
                  injection hre with hre
                  obtain ⟨ha2, hs2⟩ := Prod.mk.injEq .. ▸ hre
                  subst ha2
                  subst hs2
                  simp only [lookupMemo_logApply, lookupMemo_pushBinding,
                    lookupMemo_posInfoExit] at hrec
                  have hWrec : (s3.writeMemo c.inputStream.pos rn
                      { pos := s3.inputStream.pos, value := some v }).lookupMemo
                        c.inputStream.pos rn = some rec := by
                    split at hrec
                    · exact hrec
                    · exact hrec
                  rw [lookupMemo_writeMemo, if_pos ⟨rfl, rfl⟩] at hWrec
                  injection hWrec with hWrec
                  subst hWrec
                  refine ⟨rfl, ?_, ?_⟩
                  · simp only [logApply_pos, pushBinding_pos, posInfoExit_pos]
                    split
                    · rfl
                    · rfl
                  · intro v2 hv
                    injection hv with hv
                    subst hv
                    simp only [logApply_bindings, pushBinding_bindings]
                    exact List.getLast?_concat _
                · simp only [Option.isNone_none, if_true] at hre
                  injection hre with hre
                  obtain ⟨ha2, hs2⟩ := Prod.mk.injEq .. ▸ hre
                  subst ha2
                  subst hs2
                  simp only [lookupMemo_logApply, lookupMemo_posInfoExit] at hrec
                  have hWrec : (s3.writeMemo c.inputStream.pos rn
                      { pos := s3.inputStream.pos, value := none }).lookupMemo
                        c.inputStream.pos rn = some rec := by
                    split at hrec
                    · rw [lookupMemo_recordFailure, lookupMemo_doRecordFailures] at hrec
                      exact hrec
                    · exact hrec
                  rw [lookupMemo_writeMemo, if_pos ⟨rfl, rfl⟩] at hWrec
                  injection hWrec with hWrec
                  subst hWrec
                  refine ⟨rfl, ?_, ?_⟩
                  · simp only [logApply_pos, posInfoExit_pos]
                    split
                    · rw [recordFailure_pos, doRecordFailures_pos, writeMemo_pos]
                    · rfl
                  · intro v2 hv
                    exact absurd hv (by simp)
/-- A fresh state over input "a" with a calling application on the chain (so
the visit is not top-level). -/
def c2s1 : EvalState := { stateA with applicationStack := [PExpr.apply "c" [] 7] }
/-- Visit 1: rule `b` applied by a fresh application object — a memo miss, so
it computes and memoizes. -/
def c2r1 : Bool × EvalState := (applyEval 9 "b" [] 0 c2s1).getD (false, c2s1)
/-- The record visit 1 left at (position 0, key "b"). -/
def c2rec2 : MemoRec := (c2r1.2.lookupMemo 0 "b").getD { pos := 0, value := none }
/-- The backtracked state in which the pair is applied a second time. -/
def c2s2 : EvalState := c2r1.2.setPos 0
/-- Visit 2: the same pair applied again (a different application object) —
a memo hit, so it replays the record from visit 1. -/
def c2r2 : Bool × EvalState := (applyEval 5 "b" [] 3 c2s2).getD (false, c2s2)

/-- Claim C2 (amended): packrat idempotence for an unrewritten record.  When
the same pair (input position, memo key) is applied twice within a parse —
the first application computing and memoizing its result (its pair applied
exactly once within it, so no left recursion on the pair), the second
consulting the same, unrewritten record — the second application yields the
same boolean outcome as the first, both end at the record's final input
position, and on success both bind the same node (the recorded success node).
This covers the central compute-then-memoize/replay discipline, including
syntactic whitespace pre-skips (the consult position is the post-skip
position, see `consultState`).  Unrestricted idempotence is refuted by
`packrat_idempotence_counterexample`: left-recursion seed-growing rewrites
the record between two visits of the same pair. -/
theorem packrat_idempotence_unchanged_record
    (fuel₁ fuel₂ : Nat) (rn : String) (id₂ : Nat) (s₁ s₂ c₁ c₂ : EvalState)
    (ca : PExpr) (rest : List PExpr) (rec : MemoRec) (r₁ r₂ : Bool × EvalState)
    (h₁ : applyEval (fuel₁ + 1) rn [] 0 s₁ = some r₁)
    (hc₁ : consultState fuel₁ rn 0 s₁ = some c₁)
    (hcaller : s₁.applicationStack = ca :: rest)
    (hmiss : c₁.lookupMemo c₁.inputStream.pos rn = none)
    (hrec₁ : r₁.2.lookupMemo c₁.inputStream.pos rn = some rec)
    (hseed : 0 ≤ rec.pos)
    (hlog : pairCount r₁.2.applyLog rn c₁.inputStream.pos =
      pairCount s₁.applyLog rn c₁.inputStream.pos + 1)
    (h₂ : applyEval (fuel₂ + 1) rn [] id₂ s₂ = some r₂)
    (hc₂ : consultState fuel₂ rn id₂ s₂ = some c₂)
    (hpos : c₂.inputStream.pos = c₁.inputStream.pos)
    (hrec₂ : c₂.lookupMemo c₂.inputStream.pos rn = some rec) :
    r₂.1 = r₁.1 ∧ r₂.2.inputStream.pos = rec.pos ∧ r₁.2.inputStream.pos = rec.pos ∧
      (∀ v, rec.value = some v →
        r₁.2.bindings.getLast? = some (some v) ∧
        r₂.2.bindings.getLast? = some (some v)) := by
  have hW := applyEval_compute_memoizes fuel₁ rn s₁ c₁ ca rest rec r₁ h₁ hc₁ hcaller
    hmiss hrec₁ hseed hlog
  have hR := applyEval_replay fuel₂ rn id₂ s₂ c₂ rec r₂ h₂ hc₂ hrec₂
  exact ⟨Eq.trans hR.1 hW.1.symm, hR.2.1, hW.2.1, fun v hv =>
    ⟨hW.2.2 v hv, hR.2.2 v hv⟩⟩

theorem packrat_idempotence_unchanged_record_witness :
    c2r2.1 = c2r1.1 ∧ c2r2.2.inputStream.pos = c2rec2.pos ∧
      c2r1.2.inputStream.pos = c2rec2.pos ∧
      (∀ v, c2rec2.value = some v →
        c2r1.2.bindings.getLast? = some (some v) ∧
        c2r2.2.bindings.getLast? = some (some v)) :=
  packrat_idempotence_unchanged_record 8 4 "b" 3 c2s1 c2s2 c2s1 c2s2
    (PExpr.apply "c" [] 7) [] c2rec2 c2r1 c2r2 rfl rfl rfl rfl rfl (by decide) rfl
    rfl rfl rfl rfl

/-! ### Claim C3 -/

/-- Setting the cursor leaves the memo tables unchanged. -/
theorem lookupMemo_setPos (s : EvalState) (p q : Int) (k : String) :
    (s.setPos p).lookupMemo q k = s.lookupMemo q k := rfl

/-- The grow loop commits a strictly increasing chain of positions above the
starting record's position, and runs exactly one iteration more than it
commits (the final iteration makes no progress and breaks). -/
theorem growLoop_commits (fuel : Nat) (rn memoKey : String) (body : PExpr)
    (origPos : Int) :
    ∀ (s : EvalState) (rec : MemoRec) (res : (EvalState × List Int) × Nat),
    growLoop fuel rn memoKey body origPos s = some res →
    s.lookupMemo origPos memoKey = some rec →
    List.Chain (· < ·) rec.pos res.1.2 ∧ res.2 = res.1.2.length + 1 := by
  induction fuel with
  | zero => intro s rec res h _; simp [growLoop] at h
  | succ fuel ih =>
    intro s rec res h hrec
    simp only [growLoop] at h
    split at h
    · exact absurd h (by simp)
    · rename_i newValue s1 honce
      have E := evalOnce_effects honce
      have hrec1 : s1.lookupMemo origPos memoKey = some rec := by
        have hpres := E.memo_pres origPos memoKey rec
        rw [lookupMemo_setPos] at hpres
        exact hpres hrec
      rw [hrec1] at h
      simp only [] at h
      split at h
      · injection h with h
        subst h
        exact ⟨List.Chain.nil, rfl⟩
      · rename_i hgt
        split at h
        · exact absurd h (by simp)
        · rename_i s3 commits iters hloop
          have hrec2 : (s1.writeMemo origPos memoKey
              { pos := s1.inputStream.pos, value := newValue }).lookupMemo origPos memoKey =
              some { pos := s1.inputStream.pos, value := newValue } := by
            rw [lookupMemo_writeMemo]
            simp
          have hIH := ih _ _ _ hloop hrec2
          injection h with h
          subst h
          refine ⟨List.Chain.cons ?_ hIH.1, ?_⟩
          · exact lt_of_not_le hgt
          · simpa using hIH.2

/-- Claim C3 (amended): for every call of growSeedResult with a truthy seed
value (over a memo record for the head's key at the loop position), the
sequence of positions committed to the record is a strictly increasing chain
above the record's starting position and the loop runs exactly one iteration
more than it commits; hence when the committed positions lie in `0..len` the
loop halts after at most `len + 2` iterations.  The claimed bound of `|input|`
iterations is refuted by `grow_iteration_bound_counterexample`: a 1-atom input
on which the loop runs 2 iterations (one that grows the seed and the final
non-progressing one). -/
theorem growSeedResult_strictly_increasing (fuel : Nat) (rn memoKey : String)
    (body : PExpr) (origPos : Int) (seed : Node) (s : EvalState) (rec : MemoRec)
    (v : Option Node) (s' : EvalState) (commits : List Int) (iters : Nat) (len : Nat)
    (h : growSeedResult fuel rn memoKey body origPos (some seed) s =
      some ((v, s'), commits, iters))
    (hrec : s.lookupMemo origPos memoKey = some rec) :
    List.Chain (· < ·) rec.pos commits ∧ iters = commits.length + 1 ∧
      ((∀ c ∈ commits, 0 ≤ c ∧ c ≤ (len : Int)) → iters ≤ len + 2) := by
  cases fuel with
  | zero => simp [growSeedResult] at h
  | succ fuel =>
    simp only [growSeedResult] at h
    split at h
    · exact absurd h (by simp)
    · rename_i r1 commits1 iters1 hloop
      have hgc := growLoop_commits fuel rn memoKey body origPos s rec _ hloop hrec
      split at h
      · exact absurd h (by simp)
      · rename_i lrMemoRec hlook
        injection h with h
        simp only [Prod.mk.injEq] at h
        obtain ⟨⟨hv, hs⟩, hc, hi⟩ := h
        subst hc
        subst hi
        simp only at hgc
        refine ⟨hgc.1, hgc.2, ?_⟩
        intro hb
        have hpw : commits1.Pairwise (· < ·) :=
          (List.chain_iff_pairwise.mp hgc.1).of_cons
        have hnd : commits1.Nodup := hpw.imp (fun hlt => ne_of_lt hlt)
        have hsub : commits1.toFinset ⊆ Finset.Icc (0 : Int) (len : Int) := by
          intro c hcmem
          have hcb := hb c (List.mem_toFinset.mp hcmem)
          exact Finset.mem_Icc.mpr ⟨hcb.1, hcb.2⟩
        have hcard := Finset.card_le_card hsub
        rw [List.toFinset_card_of_nodup hnd, Int.card_Icc] at hcard
        have hlen : commits1.length ≤ len + 1 := by
          have htn : ((len : Int) + 1 - 0).toNat = len + 1 := by omega
          omega
        omega

/-- The state in which the head of the left-recursive rule `a = a "x" | "y"`
calls growSeedResult on input "y": the head application (id 1) has entered at
position 0, planted the seed placeholder record, and installed the
left-recursion frame for the inner occurrence (id 2). -/
def stGrow : EvalState :=
  let s0 := initialState lrGrammar (stringAtoms "y")
  let s1 := posInfoEnter s0 0 (PExpr.apply "a" [] 1)
  let s2 := s1.writeMemo 0 "a" { pos := -1, value := none }
  startLeftRecursion s2 0 (PExpr.apply "a" [] 2)

/-- The seed node: the first (non-recursive) match of rule `a`, "y" at 0-1. -/
def seedNode : Node := .node "a" [] (InputStream.interval 0 1)

/-- The call of growSeedResult on that state with the truthy seed. -/
def c3Run : Option ((Option Node × EvalState) × List Int × Nat) :=
  growSeedResult 25 "a" "a" lrBody 0 (some seedNode) stGrow

/-- Claim C3, counterexample to the iteration bound: growing the seed of
`a = a "x" | "y"` over the 1-atom input "y" takes 2 loop iterations — one that
grows the seed to position 1 and the final one that makes no progress — which
exceeds the claimed bound of `|input| = 1` iterations. -/
theorem grow_iteration_bound_counterexample :
    c3Run.map (fun r => r.2.2) = some 2 ∧
    stGrow.inputStream.source.length = 1 ∧
    ¬ (2 ≤ stGrow.inputStream.source.length) := by
  refine ⟨rfl, rfl, ?_⟩
  have h : stGrow.inputStream.source.length = 1 := rfl
  rw [h]
  omega

/-- The completed result of `c3Run`. -/
def c3Res : (Option Node × EvalState) × List Int × Nat :=
  c3Run.getD ((none, stGrow), [], 0)

theorem growSeedResult_strictly_increasing_witness :
    List.Chain (· < ·) (-1 : Int) [(1 : Int)] ∧
    (2 : Nat) = [(1 : Int)].length + 1 ∧
    ((∀ c ∈ [(1 : Int)], 0 ≤ c ∧ c ≤ ((1 : Nat) : Int)) → (2 : Nat) ≤ 1 + 2) :=
  growSeedResult_strictly_increasing 25 "a" "a" lrBody 0 seedNode stGrow
    { pos := -1, value := none } c3Res.1.1 c3Res.1.2 [1] 2 1 rfl rfl

/-! ### Claim C5 -/

/-- The atom of the C5 example: the object `{name: "a", extra: 7}`. -/
def c5Input : JSVal := .obj [("name", .str "a"), ("extra", .num 7)]

/-- The lenient object pattern declaring the single property `name` (its value
pattern matches any one atom). -/
def c5Pattern : PExpr := .obj [("name", PExpr.anything)] true

/-- Fresh state whose input is the single atom `{name: "a", extra: 7}`. -/
def c5State : EvalState := initialState trivGrammar [c5Input]

/-- The evaluation of the lenient pattern against that input. -/
def c5Run : Option (Bool × EvalState) := evalCore 10 c5Pattern c5State

/-- Claim C5: the match succeeds, but the remainder binding is the whole
object `{name: "a", extra: 7}` rather than the claimed `{extra: 7}` — the
declared property `name` is not excluded.  The source computes the remainder
by `properties.indexOf(p) < 0`, where `properties` holds `{name, pattern}`
records and `p` is a key string; `Array.prototype.indexOf` compares with
strict equality, an object is never `===` a string, so the test is true for
every own property and the remainder keeps them all (see
`propertiesIndexOf`). -/
theorem lenient_obj_remainder_keeps_declared_property :
    c5Run.map Prod.fst = some true ∧
    (c5Run.getD (false, c5State)).2.bindings.getLast? =
      some (some (.terminalNode (.obj [("name", .str "a"), ("extra", .num 7)])
        (InputStream.interval 0 1))) ∧
    JSVal.obj [("name", .str "a"), ("extra", .num 7)] ≠ JSVal.obj [("extra", .num 7)] := by
  refine ⟨rfl, rfl, ?_⟩
  simp

/-! ### Claim C6 -/

/-- Modelled from the spec (§7): the fatal programmer errors of the matcher
API, raised before or during a parse and surfaced to the caller. -/
inductive MatchError where
  | invalidGrammar
deriving DecidableEq

mutual

/-- Modelled from the spec (§7): every rule name applied anywhere inside an
expression (the names whose declarations grammar validation requires). -/
def appliedRuleNames : PExpr → List String
  | .apply rn ps _ => rn :: appliedRuleNamesList ps
  | .lex e => appliedRuleNames e
  | .alt ts => appliedRuleNamesList ts
  | .seq fs => appliedRuleNamesList fs
  | .iter e _ _ => appliedRuleNames e
  | .not e => appliedRuleNames e
  | .lookahead e => appliedRuleNames e
  | .arr e => appliedRuleNames e
  | .str e => appliedRuleNames e
  | .obj ps _ => appliedRuleNamesProps ps
  | .anything | .endExpr | .prim _ | .stringPrim _ | .range _ _
  | .unicodeChar _ | .param _ => []

/-- Applied names of a list of expressions. -/
def appliedRuleNamesList : List PExpr → List String
  | [] => []
  | e :: es => appliedRuleNames e ++ appliedRuleNamesList es

/-- Applied names of the property patterns of an Obj expression. -/
def appliedRuleNamesProps : List (String × PExpr) → List String
  | [] => []
  | (_, e) :: ps => appliedRuleNames e ++ appliedRuleNamesProps ps

end

/-- Modelled from the spec (§5, §7): the public match entry point validates
the grammar before evaluating — a rule name applied by the start application
or by any rule body without a declaration in `ruleDict` is the programmer
error `InvalidGrammar`, fatal to the parse and surfaced to the caller; only a
validated grammar reaches the evaluator. -/
def validateAndEval (fuel : Nat) (g : Grammar) (input : List JSVal)
    (startApp : PExpr) : Except MatchError (Option (Bool × EvalState)) :=
  let undeclared := (appliedRuleNames startApp ++
    (g.ruleDict.map (fun kv => appliedRuleNames kv.2.body)).flatten).filter
    (fun rn => (g.ruleDict.lookup rn).isNone)
  if undeclared.isEmpty then
    .ok (eval fuel startApp (initialState g input))
  else
    .error .invalidGrammar

/-- Claim C6: applying a rule name that is not declared in the grammar's rule
dictionary fails with the InvalidGrammar error — the parse returns the fatal
error to the caller instead of an ordinary parse failure (an `.ok` carrying
false) or an unrelated crash. -/
theorem unknown_rule_fails_with_invalid_grammar (fuel : Nat) (g : Grammar)
    (input : List JSVal) (rn : String) (ps : List PExpr) (id : Nat)
    (h : g.ruleDict.lookup rn = none) :
    validateAndEval fuel g input (.apply rn ps id) = .error .invalidGrammar := by
  simp only [validateAndEval]
  have hmem : rn ∈ (appliedRuleNames (.apply rn ps id) ++
      (g.ruleDict.map (fun kv => appliedRuleNames kv.2.body)).flatten) := by
    simp [appliedRuleNames]
  have hfil : rn ∈ (appliedRuleNames (.apply rn ps id) ++
      (g.ruleDict.map (fun kv => appliedRuleNames kv.2.body)).flatten).filter
      (fun rn' => (g.ruleDict.lookup rn').isNone) :=
    List.mem_filter.mpr ⟨hmem, by simp [h]⟩
  have hne := List.ne_nil_of_mem hfil
  rw [if_neg]
  intro hc
  exact hne (List.isEmpty_iff.mp hc)

theorem unknown_rule_fails_with_invalid_grammar_witness :
    validateAndEval 5 trivGrammar (stringAtoms "a") (.apply "zzz" [] 1) =
      .error .invalidGrammar :=
  unknown_rule_fails_with_invalid_grammar 5 trivGrammar (stringAtoms "a") "zzz" [] 1 rfl

/-! ### Claim C7 -/

/-- Claim C7 (amended): a successful Arr(e) evaluation consumes exactly the
one array atom from the outer stream (the restored outer stream is the
original advanced by one position, with the rest of the stream stack
unchanged) and leaves the nested stream over the array's elements at its end
— but the bindings stack is NOT left unchanged: the result keeps exactly the
bindings of the inner evaluation of `e` over the nested stream, so it grows
by the arity of `e` rather than by 0.  The claimed "grows by exactly 0"
is refuted by `arr_arity_zero_counterexample`. -/
theorem arr_success_characterization (fuel : Nat) (expr : PExpr) (s s' : EvalState)
    (h : evalCore (fuel + 1) (.arr expr) s = some (true, s')) :
    ∃ elems s2,
      s.inputStream.next.1 = some (.arr elems) ∧
      eval fuel expr (({ s with inputStream := s.inputStream.next.2 }).pushInputStream
        (InputStream.newFor (.arr elems))) = some (true, s2) ∧
      s2.inputStream.atEnd = true ∧
      s' = s2.popInputStream ∧
      s'.bindings = s2.bindings ∧
      s'.inputStream = { s.inputStream with pos := s.inputStream.pos + 1 } ∧
      s'.inputStreamStack = s.inputStreamStack := by
  simp only [evalCore] at h
  split at h
  · rename_i elems heq
    split at h
    · exact absurd h (by simp)
    · rename_i ans0 s2 heval
      rw [Option.some.injEq, Prod.mk.injEq] at h
      obtain ⟨hans, hs'⟩ := h
      rw [Bool.and_eq_true] at hans
      obtain ⟨hans0, hend⟩ := hans
      subst hans0
      have E := eval_effects heval
      have hstk : s2.inputStreamStack = s.inputStream.next.2 :: s.inputStreamStack := by
        have hx := E.stack_eq
        simpa [EvalState.pushInputStream] using hx
      have hcond : 0 ≤ s.inputStream.pos ∧
          s.inputStream.pos < (s.inputStream.source.length : Int) := by
        by_contra hc
        have hnone : s.inputStream.next = (none, s.inputStream) := by
          simp [InputStream.next, hc]
        rw [hnone] at heq
        simp at heq
      have hnx2 : s.inputStream.next.2 = { s.inputStream with pos := s.inputStream.pos + 1 } := by
        simp [InputStream.next, hcond]
      have hpop : s2.popInputStream =
          { s2 with
            inputStream := s.inputStream.next.2
            inputStreamStack := s.inputStreamStack } := by
        simp [EvalState.popInputStream, hstk]
      refine ⟨elems, s2, heq, heval, hend, hs'.symm, ?_, ?_, ?_⟩
      · rw [← hs', hpop]
      · rw [← hs', hpop, hnx2]
      · rw [← hs', hpop]
  · simp at h
/-- A fresh state whose single atom is the array [1] (C7 fixture). -/
def c7State : EvalState := initialState trivGrammar [.arr [.num 1]]

/-- The result of matching Arr(anything) against that atom. -/
def c7Result : Bool × EvalState :=
  (evalCore 10 (.arr .anything) c7State).getD (false, c7State)

/-- Claim C7, counterexample to "bindings grow by exactly 0": matching
Arr(anything) against the single atom [1] succeeds, but the bindings stack
grows from 0 to 1 entries — the node bound by the inner `anything` stays. -/
theorem arr_arity_zero_counterexample :
    evalCore 10 (.arr .anything) c7State = some (true, c7Result.2) ∧
    c7State.bindings.length = 0 ∧
    c7Result.2.bindings.length = 1 ∧
    ¬ (c7Result.2.bindings.length = c7State.bindings.length) := by
  refine ⟨rfl, rfl, rfl, ?_⟩
  decide

theorem arr_success_characterization_witness :
    ∃ elems s2,
      c7State.inputStream.next.1 = some (.arr elems) ∧
      eval 9 .anything
        (({ c7State with inputStream := c7State.inputStream.next.2 }).pushInputStream
          (InputStream.newFor (.arr elems))) = some (true, s2) ∧
      s2.inputStream.atEnd = true ∧
      c7Result.2 = s2.popInputStream ∧
      c7Result.2.bindings = s2.bindings ∧
      c7Result.2.inputStream = { c7State.inputStream with pos := c7State.inputStream.pos + 1 } ∧
      c7Result.2.inputStreamStack = c7State.inputStreamStack :=
  arr_success_characterization 9 .anything c7State c7Result.2 rfl

/-! ### Claim C8 -/

/-- A left-recursion frame whose head sits below one involved application:
the head's memo key "a" is at stack index 0, so the first involved rule is at
index 1, and "b" is already involved. -/
def c8Frame : LRFrame :=
  { headApplication := .apply "a" [] 2
    involvedApplications := ["b"]
    indexOfFirstInvolvedRule := 1 }

/-- Claim C8: updateInvolvedApplications never appends anything.  The
position's applicationStack holds memo-key strings (PosInfo.enter pushes
`application.toMemoKey()`), yet the loop body treats its elements as
application objects and calls `.toMemoKey()` on them via `isInvolved` — a
TypeError whenever an application was newly entered since the frame began
(modelled as `none`); with no newly entered application the loop body never
runs and the frame is returned unchanged.  Moreover the function has no call
site: `growSeedResult` (pexprs-eval.js lines 424-447) never invokes it, so no
update is performed while the seed is grown. -/
theorem update_involved_applications_crashes :
    updateInvolvedApplications c8Frame ["a", "b", "c"] = none ∧
    updateInvolvedApplications c8Frame ["a", "b"] = some c8Frame :=
  ⟨rfl, rfl⟩

end Ohm
